import Mathlib

/-
  Verification development for the Scenario_Generation repository
  (BehaviorGPT traffic-simulation model).

  The Python sources are shallowly embedded as executable Lean
  definitions over exact rational arithmetic.  Conventions:

  * Tensors indexed by agent/timestep/component become curried
    functions into rationals (or booleans for masks); real-valued
    external numeric primitives (cos, sin, norm, angle_between_2d_vectors)
    are taken as function parameters, since no claim depends on their
    values, only on where they are applied.
  * Angles are measured in units of pi, so the wrap-to-(-pi, pi]
    operation becomes an exact map into the rational interval (-1, 1].
  * Nearest-neighbour distances are compared through squared planar
    distance, an order-preserving substitute for the Euclidean norm.
-/

namespace ScenGen

/-! ## Generic list helpers (insertion sort, used to model torch.sort / torch.topk) -/

/-- Insert an element into a list ordered by the boolean relation. -/
def insOrd {α : Type} (le : α → α → Bool) (x : α) : List α → List α
  | [] => [x]
  | y :: ys => if le x y then x :: y :: ys else y :: insOrd le x ys

/-- Insertion sort by a boolean relation; models the deterministic part of
torch.sort (ties broken by index, a documented modelling choice since the
source relies on an unspecified tie order). -/
def sortOrd {α : Type} (le : α → α → Bool) (l : List α) : List α :=
  l.foldr (insOrd le) []

/-! ## wrap_angle

The utility module of the repository is not part of the provided sources. -/

/-- Modelled from the spec: wrap_angle from the repository's utils module.
"for all angles theta, wrap(theta) lies in (-pi, pi] and
wrap(theta) is congruent to theta (mod 2 pi)".  Angles are measured in units
of pi, so the range becomes (-1, 1] and the period becomes 2. -/
def wrapQ (x : ℚ) : ℚ := x - 2 * (⌈(x - 1) / 2⌉ : ℤ)

/-! ## Training / validation step (src/simulators/behavior_gpt.py, training_step)

The mixture NLL loss itself is an external collaborator returning one value
per (agent, timestep) window; it is abstracted as a raw loss matrix. -/

/-- One iteration of the predict-mask construction loop
(`predict_mask[:, :-t-1, t] = valid_mask[:, :-t-1] & valid_mask[:, t+1:]`). -/
def predictMaskWrite (S : ℕ) (valid : ℕ → ℕ → Bool) (t : ℕ)
    (pm : ℕ → ℕ → ℕ → Bool) : ℕ → ℕ → ℕ → Bool :=
  fun a s k =>
    if k = t ∧ s + t + 1 < S then valid a s && valid a (s + t + 1) else pm a s k

/-- The predictability mask of training_step / validation_step: a zero tensor
of shape [A, S, 10] overwritten by the loop `for t in range(10)`. -/
def predictMask (S : ℕ) (valid : ℕ → ℕ → Bool) : ℕ → ℕ → ℕ → Bool :=
  (List.range 10).foldl (fun pm t => predictMaskWrite S valid t pm) (fun _ _ _ => false)

/-- `predict_mask.sum(dim=-1)`: number of predictable look-ahead offsets at
one (agent, timestep) position. -/
def predictCount (S : ℕ) (valid : ℕ → ℕ → Bool) (a s : ℕ) : ℕ :=
  ((List.range 10).filter (fun k => predictMask S valid a s k)).length

/-- `predict_mask.any(dim=-1)`. -/
def predictAny (S : ℕ) (valid : ℕ → ℕ → Bool) (a s : ℕ) : Bool :=
  (List.range 10).any (fun k => predictMask S valid a s k)

/-- Row-major enumeration of the (agent, timestep) grid, matching the
`reshape(-1, num_steps)` flattening of the per-window losses. -/
def pairList (A S : ℕ) : List (ℕ × ℕ) :=
  (List.range A).flatMap (fun a => (List.range S).map (fun s => (a, s)))

/-- The loss aggregation of training_step (identical in validation_step):
`loss = loss / predict_mask.sum(dim=-1).clamp(min=1)` followed by
`loss = loss[predict_mask.any(dim=-1)].mean()`.  `raw` is the per-window
output of the external mixture NLL collaborator (already masked inside it). -/
def trainingLoss (A S : ℕ) (valid : ℕ → ℕ → Bool) (raw : ℕ → ℕ → ℚ) : ℚ :=
  let normed : ℕ → ℕ → ℚ := fun a s => raw a s / (max (predictCount S valid a s) 1 : ℕ)
  let kept := (pairList A S).filter (fun p => predictAny S valid p.1 p.2)
  (kept.map (fun p => normed p.1 p.2)).sum / kept.length

/-! ## Test-time rollout (src/simulators/behavior_gpt.py, test_step)

One chunk of the autoregressive loop.  The encoder+head forward pass and the
per-agent mixture-mode sampling produce, at the anchor timestep, a selected
mode's local-frame predictions; these arrive here as a `ChunkPred`
(agent, sub-step, component).  `cosF`/`sinF` stand for the external cosine /
sine primitives.  The position branch models `pos_dim = 3` (the configuration
the source supports: with `pos_dim = 2` the line `pos[..., 2] = ...` indexes
component 2 of a 2-component tensor and raises).  `num_action_steps = 10`. -/

structure RScene where
  pos : ℕ → ℕ → ℕ → ℚ
  vel : ℕ → ℕ → ℕ → ℚ
  heading : ℕ → ℕ → ℚ

structure ChunkPred where
  pos : ℕ → ℕ → ℕ → ℚ
  vel : ℕ → ℕ → ℕ → ℚ
  theta : ℕ → ℕ → ℕ → ℚ

/-- One iteration of the chunk loop of test_step: rotate the predicted
local-frame chunk into the global frame using the heading at the anchor
timestep `num_init_steps + t*10 - 1`, translate by the anchor position, and
write back position (components < 3), velocity (components < vel_dim) and
heading, each over the slice
`[num_init_steps + t*10, num_init_steps + (t+1)*10)`. -/
def rolloutChunk (cosF sinF : ℚ → ℚ) (velDim ni : ℕ)
    (pred : ChunkPred) (d : RScene) (t : ℕ) : RScene :=
  let anchor := ni + t * 10 - 1
  let curTheta : ℕ → ℚ := fun a => d.heading a anchor
  -- rot_mat = [[cos, sin], [-sin, cos]] applied as row-vector @ rot_mat
  let rotX : ℕ → ℚ → ℚ → ℚ := fun a x y => x * cosF (curTheta a) - y * sinF (curTheta a)
  let rotY : ℕ → ℚ → ℚ → ℚ := fun a x y => x * sinF (curTheta a) + y * cosF (curTheta a)
  let gpos : ℕ → ℕ → ℕ → ℚ := fun a i c =>
    if c = 0 then rotX a (pred.pos a i 0) (pred.pos a i 1) + d.pos a anchor 0
    else if c = 1 then rotY a (pred.pos a i 0) (pred.pos a i 1) + d.pos a anchor 1
    else pred.pos a i c + d.pos a anchor c
  let gvel : ℕ → ℕ → ℕ → ℚ := fun a i c =>
    if c = 0 then rotX a (pred.vel a i 0) (pred.vel a i 1)
    else if c = 1 then rotY a (pred.vel a i 0) (pred.vel a i 1)
    else pred.vel a i c
  let lo := ni + t * 10
  let hi := ni + (t + 1) * 10
  { pos := fun a s c => if lo ≤ s ∧ s < hi ∧ c < 3 then gpos a (s - lo) c else d.pos a s c
    vel := fun a s c => if lo ≤ s ∧ s < hi ∧ c < velDim then gvel a (s - lo) c else d.vel a s c
    heading := fun a s =>
      if lo ≤ s ∧ s < hi then wrapQ (curTheta a + pred.theta a (s - lo) 0)
      else d.heading a s }

/-- A whole test-time rollout: fold any sequence of (prediction, chunk index)
steps over the scene buffer.  This covers the source's nested loops
(`for k in range(32): for t in range(...)`) for every possible sequence of
network outputs, since the prediction at each step is universally
quantified. -/
def rolloutRun (cosF sinF : ℚ → ℚ) (velDim ni : ℕ)
    (steps : List (ChunkPred × ℕ)) (d : RScene) : RScene :=
  steps.foldl (fun sc pt => rolloutChunk cosF sinF velDim ni pt.1 sc pt.2) d

/-! ## Target construction (src/transforms/sim_target_builder.py)

`SimTargetBuilder.__call__` allocates a zero tensor of shape
[num_agents, num_timesteps, 10, 6] and, for each look-ahead offset
`t in range(10)`, writes rows `[:, :-t-1, t]`; rows whose target timestep
falls beyond the horizon keep their zero initialisation.  The builder reads
only position / heading / velocity; the validity mask is not consulted. -/

structure TScene where
  S : ℕ
  posDim : ℕ
  pos : ℕ → ℕ → ℕ → ℚ
  vel : ℕ → ℕ → ℕ → ℚ
  heading : ℕ → ℕ → ℚ
  valid : ℕ → ℕ → Bool

/-- Entry (agent a, anchor timestep s, offset k, component c) of the target
tensor produced by SimTargetBuilder.  rot_mat has rows [cos, -sin], [sin, cos]
and is applied as row-vector @ rot_mat, i.e. rotation by minus the anchor
heading (global to local frame). -/
def simTarget (cosF sinF : ℚ → ℚ) (d : TScene) : ℕ → ℕ → ℕ → ℕ → ℚ :=
  fun a s k c =>
    if k < 10 ∧ s + k + 1 < d.S then
      let h := d.heading a s
      let dx := d.pos a (s + k + 1) 0 - d.pos a s 0
      let dy := d.pos a (s + k + 1) 1 - d.pos a s 1
      if c = 0 then dx * cosF h + dy * sinF h
      else if c = 1 then -(dx * sinF h) + dy * cosF h
      else if c = 2 then
        (if d.posDim = 3 then d.pos a (s + k + 1) 2 - d.pos a s 2 else 0)
      else if c = 3 then d.vel a (s + k + 1) 0 * cosF h + d.vel a (s + k + 1) 1 * sinF h
      else if c = 4 then -(d.vel a (s + k + 1) 0 * sinF h) + d.vel a (s + k + 1) 1 * cosF h
      else if c = 5 then wrapQ (d.heading a (s + k + 1) - h)
      else 0
    else 0

/-! ## Agent-set downselection (src/transforms/sim_agent_filter.py)

torch.topk on a float tensor returns the indices of the k extremal entries
with an unspecified tie order; it is modelled by a full sort keyed
lexicographically by (value, index).  The masked-out sentinel values
(float max / int64 min) become the top / bottom elements of `WithTop` /
`WithBot` ordered types.  Squared planar distance replaces the Euclidean
norm (an order-preserving change).  torch.unique returns the sorted
distinct values.  The transform is Option-valued: the source raises in
torch.topk when the unconditionally kept agents already exceed the budget
(negative k).  -/

structure FScene where
  n : ℕ
  T : ℕ
  avIndex : ℕ
  valid : ℕ → ℕ → Bool
  pos : ℕ → ℕ → ℚ × ℚ
  targetMask : ℕ → Bool
  id : ℕ → ℤ
  heading : ℕ → ℕ → ℚ

/-- Squared planar distance. -/
def dist2 (u v : ℚ × ℚ) : ℚ := (u.1 - v.1) * (u.1 - v.1) + (u.2 - v.2) * (u.2 - v.2)

/-- Indices of the k smallest key values among 0..n-1 (ties by index),
modelling `torch.topk(..., largest=False).indices`. -/
def topkSmall (key : ℕ → WithTop ℚ) (n k : ℕ) : List ℕ :=
  (sortOrd (fun i j => decide (key i < key j ∨ (key i = key j ∧ i ≤ j))) (List.range n)).take k

/-- Indices of the k largest key values among 0..n-1 (ties by index),
modelling `torch.topk(..., largest=True).indices`. -/
def topkLarge (key : ℕ → WithBot ℤ) (n k : ℕ) : List ℕ :=
  (sortOrd (fun i j => decide (key j < key i ∨ (key i = key j ∧ i ≤ j))) (List.range n)).take k

/-- torch.unique: sorted distinct elements (all indices lie below n). -/
def uniqueSorted (n : ℕ) (l : List ℕ) : List ℕ :=
  (List.range n).filter (fun i => decide (i ∈ l))

/-- The list of unconditionally kept indices (`agent_inds` after the sdv and
track_to_predict step); the source consults the unmodified target_mask at
this point, so the ego may appear twice. -/
def baseInds (d : FScene) : List ℕ :=
  d.avIndex :: (List.range d.n).filter (fun i => d.targetMask i)

/-- `agent_inds` after the distance-based context pass. -/
def distInds (maxNum hist : ℕ) (d : FScene) : List ℕ :=
  let cs := hist - 1
  let validDist : ℕ → Bool := fun i => d.valid i cs && !(decide (i ∈ baseInds d))
  let dKey : ℕ → WithTop ℚ := fun i =>
    if validDist i then ((dist2 (d.pos i cs) (d.pos d.avIndex cs) : ℚ) : WithTop ℚ)
    else ⊤
  baseInds d ++
    (topkSmall dKey d.n (min (maxNum - (baseInds d).length) d.n)).filter validDist

/-- `agent_inds` after the valid-timestep-count context pass. -/
def stateInds (maxNum hist : ℕ) (d : FScene) : List ℕ :=
  let inds1 := distInds maxNum hist d
  if inds1.length < maxNum then
    let validState : ℕ → Bool := fun i => !(decide (i ∈ inds1))
    let sKey : ℕ → WithBot ℤ := fun i =>
      if validState i then
        (((((List.range d.T).filter (fun s => d.valid i s)).length : ℤ)) : WithBot ℤ)
      else ⊥
    inds1 ++ (topkLarge sKey d.n (min (maxNum - inds1.length) d.n)).filter validState
  else inds1

/-- The final kept indices (`torch.unique(agent_inds)`), or none when the
source raises in torch.topk (the unconditionally kept agents already exceed
the budget, making k negative). -/
def keptInds (maxNum hist : ℕ) (d : FScene) : Option (List ℕ) :=
  if maxNum < (baseInds d).length then none
  else some (uniqueSorted d.n (stateInds maxNum hist d))

/-- Re-index every per-agent field through the kept list and reset av_index
to 0 (as the source does). -/
def reindexScene (d : FScene) (kept : List ℕ) : FScene :=
  { n := kept.length
    T := d.T
    avIndex := 0
    valid := fun j s => d.valid (kept.getD j 0) s
    pos := fun j s => d.pos (kept.getD j 0) s
    targetMask := fun j => d.targetMask (kept.getD j 0)
    id := fun j => d.id (kept.getD j 0)
    heading := fun j s => d.heading (kept.getD j 0) s }

/-- SimAgentFilter.__call__.  `maxNum` is max_num_agents, `hist` is
num_historical_steps; scenes within the budget pass through unchanged. -/
def simAgentFilter (maxNum hist : ℕ) (d : FScene) : Option FScene :=
  if d.n ≤ maxNum then some d
  else (keptInds maxNum hist d).map (reindexScene d)

/-! ## Decoder graphs (src/modules/behavior_gpt_decoder.py, forward)

Node universes: time-flattened agent nodes `a * T + s` (as produced by
`dense_to_sparse` over the [A, T, T] mask and by `repeat_interleave`), and
time-major agent nodes `s * A + a` (as produced by `transpose(0, 1)` before
the agent-to-agent step).  Multi-scene batches are described by the
per-scene agent and map-point counts, from which the PyG ptr / batch
vectors are derived. -/

structure DScene where
  agentSizes : List ℕ
  mapSizes : List ℕ
  T : ℕ
  valid : ℕ → ℕ → Bool
  pos : ℕ → ℕ → ℕ → ℚ
  heading : ℕ → ℕ → ℚ
  vel : ℕ → ℕ → ℕ → ℚ
  alen : ℕ → ℕ → ℚ
  awid : ℕ → ℕ → ℚ
  ahei : ℕ → ℕ → ℚ
  atype : ℕ → ℕ
  mpos : ℕ → ℕ → ℚ
  morient : ℕ → ℚ
  mtype : ℕ → ℕ
  mmag : ℕ → ℚ
  mhei : ℕ → ℚ

/-- Total number of agents in the batch. -/
def DScene.A (d : DScene) : ℕ := d.agentSizes.sum

/-- Total number of map points in the batch. -/
def DScene.M (d : DScene) : ℕ := d.mapSizes.sum

/-- The PyG batch vector derived from per-scene sizes: which scene an index
belongs to (indices past the end map to the number of scenes). -/
def batchOf : List ℕ → ℕ → ℕ
  | [], _ => 0
  | sz :: rest, a => if a < sz then 0 else batchOf rest (a - sz) + 1

/-- Scene of a time-flattened agent node (`batch_t`, the agent batch vector
repeat-interleaved over timesteps). -/
def sceneOfT (d : DScene) (n : ℕ) : ℕ := batchOf d.agentSizes (n / d.T)

/-- Scene of a time-major agent node. -/
def sceneOfS (d : DScene) (n : ℕ) : ℕ := batchOf d.agentSizes (n % d.A)

/-- The a2a grouping vector `batch_s = agent_batch + num_graphs * timestep`:
a distinct value per (scene, timestep) pair. -/
def batchS (d : DScene) (n : ℕ) : ℕ :=
  batchOf d.agentSizes (n % d.A) + d.agentSizes.length * (n / d.A)

/-- Validity of a time-flattened agent node (`mask_t`). -/
def maskT (d : DScene) (n : ℕ) : Bool := d.valid (n / d.T) (n % d.T)

/-- Validity of a time-major agent node (`mask_s`). -/
def maskS (d : DScene) (n : ℕ) : Bool := d.valid (n % d.A) (n / d.A)

/-- Position component of a time-flattened agent node. -/
def posTC (d : DScene) (n c : ℕ) : ℚ := d.pos (n / d.T) (n % d.T) c

/-- Planar position of a time-flattened agent node. -/
def posT2 (d : DScene) (n : ℕ) : ℚ × ℚ := (posTC d n 0, posTC d n 1)

/-- Heading of a time-flattened agent node. -/
def headT (d : DScene) (n : ℕ) : ℚ := d.heading (n / d.T) (n % d.T)

/-- Position component of a time-major agent node. -/
def posSC (d : DScene) (n c : ℕ) : ℚ := d.pos (n % d.A) (n / d.A) c

/-- Planar position of a time-major agent node. -/
def posS2 (d : DScene) (n : ℕ) : ℚ × ℚ := (posSC d n 0, posSC d n 1)

/-- Heading of a time-major agent node. -/
def headS (d : DScene) (n : ℕ) : ℚ := d.heading (n % d.A) (n / d.A)

/-- Planar position of a map point. -/
def posM2 (d : DScene) (m : ℕ) : ℚ × ℚ := (d.mpos m 0, d.mpos m 1)

/-- The base temporal pair list:
`mask_t = mask.unsqueeze(2) & mask.unsqueeze(1)`, `dense_to_sparse`
(row-major per agent block, node offset `a * T`), then the causal filter
`edge_index_t[1] > edge_index_t[0]`.  Edge convention: (source, destination). -/
def tPairs (d : DScene) : List (ℕ × ℕ) :=
  (List.range d.A).flatMap fun a =>
    (List.range d.T).flatMap fun i =>
      (List.range d.T).filterMap fun j =>
        if d.valid a i && d.valid a j && decide (i < j) then
          some (a * d.T + i, a * d.T + j)
        else none

/-- The patch-temporal graph: gaps strictly below 10. -/
def patchEdges (d : DScene) : List (ℕ × ℕ) :=
  (tPairs d).filter fun e => decide (e.2 - e.1 < 10)

/-- The full-temporal graph: the source keeps gaps divisible by the literal
constant 10 (`(edge_index_t[1] - edge_index_t[0]) % 10 == 0`); the stored
`self.time_span` parameter is not consulted here. -/
def fullEdges (d : DScene) : List (ℕ × ℕ) :=
  (tPairs d).filter fun e => decide ((e.2 - e.1) % 10 = 0)

/-- Modelled from the spec: the torch_cluster nearest-neighbour collaborator.
"nearest_k(query, candidates, k, ...) -> edge_list; must never return
cross-scene edges": for one query point, the k nearest candidates (by planar
distance, here compared through its square; ties by candidate index) drawn
from a pre-filtered same-batch candidate list. -/
def knnFrom (cands : List ℕ) (posOf : ℕ → ℚ × ℚ) (q : ℚ × ℚ) (k : ℕ) : List ℕ :=
  (sortOrd (fun i j =>
    decide (dist2 (posOf i) q < dist2 (posOf j) q ∨
      (dist2 (posOf i) q = dist2 (posOf j) q ∧ i ≤ j))) cands).take k

/-- `knn(x=pos_m[:, :2], y=pos_t[:, :2], k, batch_x=batch_m, batch_y=batch_t)`
followed by the `[[1, 0]]` flip: edges (map source, agent-time destination). -/
def m2aKnn (d : DScene) (k : ℕ) : List (ℕ × ℕ) :=
  (List.range (d.A * d.T)).flatMap fun q =>
    (knnFrom ((List.range d.M).filter fun m => decide (batchOf d.mapSizes m = sceneOfT d q))
      (posM2 d) (posT2 d q) k).map fun m => (m, q)

/-- The nearest-neighbour map-to-agent graph after the validity filter
`edge_index_m2a[:, mask_t[edge_index_m2a[1]]]`. -/
def m2aEdgesKnn (d : DScene) (k : ℕ) : List (ℕ × ℕ) :=
  (m2aKnn d k).filter fun e => maskT d e.2

/-- Modelled from the spec: complete_graph from the repository's utils module
in its bipartite form — the documented all-pairs fallback restricted to
corresponding per-scene offset ranges (`ptr` segments).  Stated by structural
recursion over the two per-scene size lists. -/
def cgBip : List ℕ → List ℕ → List (ℕ × ℕ)
  | s :: ss, t :: ts =>
      ((List.range s).flatMap fun i => (List.range t).map fun j => (i, j)) ++
        (cgBip ss ts).map (fun e => (e.1 + s, e.2 + t))
  | _, _ => []

/-- Modelled from the spec: complete_graph from the repository's utils module
in its monopartite form with `loop=False` — all ordered pairs of distinct
indices within each `ptr` segment. -/
def cgMono : List ℕ → List (ℕ × ℕ)
  | s :: ss =>
      ((List.range s).flatMap fun i =>
        ((List.range s).filter fun j => decide (j ≠ i)).map fun j => (i, j)) ++
        (cgMono ss).map (fun e => (e.1 + s, e.2 + s))
  | [] => []

/-- The fallback distance cutoff `torch.norm(rel_pos, ...) < 20.0`, compared
through the squared norm over the first `inputDim` components. -/
def fbNear (inputDim : ℕ) (u v : ℕ → ℚ) : Prop :=
  (u 0 - v 0) ^ 2 + (u 1 - v 1) ^ 2 +
    (if inputDim = 3 then (u 2 - v 2) ^ 2 else 0) < 400

instance (inputDim : ℕ) (u v : ℕ → ℚ) : Decidable (fbNear inputDim u v) := by
  unfold fbNear; infer_instance

/-- The all-pairs fallback map-to-agent graph: complete bipartite per scene
(the agent-time ptr segments are the per-scene agent counts scaled by T),
then the destination validity filter, then the 20-unit cutoff. -/
def m2aEdgesFb (d : DScene) (inputDim : ℕ) : List (ℕ × ℕ) :=
  (((cgBip d.mapSizes (d.agentSizes.map fun z => z * d.T)).filter fun e =>
      maskT d e.2).filter fun e =>
    decide (fbNear inputDim (d.mpos e.1) (fun c => posTC d e.2 c)))

/-- The map-to-agent graph of one forward pass, by collaborator availability. -/
def m2aEdges (avail : Bool) (inputDim k : ℕ) (d : DScene) : List (ℕ × ℕ) :=
  if avail then m2aEdgesKnn d k else m2aEdgesFb d inputDim

/-- `knn_graph(x=pos_s[:, :2], k, batch=batch_s, loop=False)`: per query, the
k nearest other nodes sharing the (scene, timestep) group. -/
def a2aKnn (d : DScene) (k : ℕ) : List (ℕ × ℕ) :=
  (List.range (d.A * d.T)).flatMap fun q =>
    (knnFrom ((List.range (d.A * d.T)).filter fun c =>
        decide (c ≠ q) && decide (batchS d c = batchS d q))
      (posS2 d) (posS2 d q) k).map fun c => (c, q)

/-- The segment sizes of `agent_ptr_s`: one segment per (timestep, scene) —
the per-scene agent counts repeated once per timestep, in timestep-major
order, exactly the segments delimited by `agent_ptr_s`. -/
def a2aSegs (d : DScene) : List ℕ :=
  (List.replicate d.T d.agentSizes).flatten

/-- The agent-to-agent graph of one forward pass: nearest-neighbour or
all-pairs fallback, then `subgraph(subset=mask_s, ...)` (both endpoints
valid), then (fallback only) the 20-unit cutoff. -/
def a2aEdges (avail : Bool) (inputDim k : ℕ) (d : DScene) : List (ℕ × ℕ) :=
  if avail then
    (a2aKnn d k).filter fun e => maskS d e.1 && maskS d e.2
  else
    ((cgMono (a2aSegs d)).filter fun e => maskS d e.1 && maskS d e.2).filter fun e =>
      decide (fbNear inputDim (fun c => posSC d e.1 c) (fun c => posSC d e.2 c))

/-! ## Decoder pipeline (src/modules/behavior_gpt_decoder.py, forward)

Hidden feature vectors are represented by a single rational channel; the
external numeric primitives (cosine, sine, torch.norm,
angle_between_2d_vectors from the missing utils module) and the learned
modules (Fourier embeddings, attention layers, per layer index) are
universally quantified function parameters, collected in `DecParams`.  The
attention collaborator is modelled from the spec contract:
"apply(node_features, edge_features, edge_list, valid_index?) ->
updated_node_features", each destination restricted to the valid-index
subset and consuming the messages (source feature, edge feature) of its
incoming edges. -/

structure DecParams where
  numLayers : ℕ
  inputDim : ℕ
  -- the configured temporal stride: stored by __init__ (line 58) but never
  -- consulted by forward, which filters with the literal constant 10
  timeSpan : ℕ
  kM2A : ℕ
  kA2A : ℕ
  clusterAvail : Bool
  cosF : ℚ → ℚ
  sinF : ℚ → ℚ
  normF : ℚ × ℚ → ℚ
  angF : ℚ × ℚ → ℚ × ℚ → ℚ
  embA : List ℚ → ℕ → ℚ
  embM : List ℚ → ℕ → ℚ
  rEmbPatch : List ℚ → ℚ
  rEmbT : List ℚ → ℚ
  rEmbM2A : List ℚ → ℚ
  rEmbA2A : List ℚ → ℚ
  updPatch : ℚ → List (ℚ × ℚ) → ℚ
  updT : ℕ → ℚ → List (ℚ × ℚ) → ℚ
  updM2A : ℕ → ℚ → List (ℚ × ℚ) → ℚ
  updA2A : ℕ → ℚ → List (ℚ × ℚ) → ℚ

/-- Heading unit vector of a time-flattened agent node (`head_vector_t`). -/
def headVecT (p : DecParams) (d : DScene) (n : ℕ) : ℚ × ℚ :=
  (p.cosF (headT d n), p.sinF (headT d n))

/-- Heading unit vector of a time-major agent node (`head_vector_s`). -/
def headVecS (p : DecParams) (d : DScene) (n : ℕ) : ℚ × ℚ :=
  (p.cosF (headS d n), p.sinF (headS d n))

/-- Continuous agent features `x_a`: planar speed, velocity bearing against
the heading vector, box length / width / height. -/
def xAfeat (p : DecParams) (d : DScene) (n : ℕ) : List ℚ :=
  let a := n / d.T
  let s := n % d.T
  [p.normF (d.vel a s 0, d.vel a s 1),
   p.angF (headVecT p d n) (d.vel a s 0, d.vel a s 1),
   d.alen a s, d.awid a s, d.ahei a s]

/-- Continuous map features `x_m` for a supported input dimensionality
(2 or 3); the 3-dimensional branch appends the map-point height. -/
def xMfeat (inputDim : ℕ) (d : DScene) (m : ℕ) : List ℚ :=
  if inputDim = 2 then [d.mmag m] else [d.mmag m, d.mhei m]

/-- Temporal edge features (shared shape of `r_patch` and `r_t`): planar
relative distance, bearing against the destination heading vector, the raw
vertical offset when 3-dimensional, wrapped relative heading, and the signed
node-index (= timestep) offset. -/
def relTimeFeat (p : DecParams) (d : DScene) (e : ℕ × ℕ) : List ℚ :=
  let rx := posTC d e.1 0 - posTC d e.2 0
  let ry := posTC d e.1 1 - posTC d e.2 1
  [p.normF (rx, ry), p.angF (headVecT p d e.2) (rx, ry)] ++
    (if p.inputDim = 3 then [posTC d e.1 2 - posTC d e.2 2] else []) ++
    [wrapQ (headT d e.1 - headT d e.2), (e.1 : ℚ) - (e.2 : ℚ)]

/-- Map-to-agent edge features `r_m2a`. -/
def relM2AFeat (p : DecParams) (d : DScene) (e : ℕ × ℕ) : List ℚ :=
  let rx := d.mpos e.1 0 - posTC d e.2 0
  let ry := d.mpos e.1 1 - posTC d e.2 1
  [p.normF (rx, ry), p.angF (headVecT p d e.2) (rx, ry)] ++
    (if p.inputDim = 3 then [d.mpos e.1 2 - posTC d e.2 2] else []) ++
    [wrapQ (d.morient e.1 - headT d e.2)]

/-- Agent-to-agent edge features `r_a2a` (time-major indexing). -/
def relA2AFeat (p : DecParams) (d : DScene) (e : ℕ × ℕ) : List ℚ :=
  let rx := posSC d e.1 0 - posSC d e.2 0
  let ry := posSC d e.1 1 - posSC d e.2 1
  [p.normF (rx, ry), p.angF (headVecS p d e.2) (rx, ry)] ++
    (if p.inputDim = 3 then [posSC d e.1 2 - posSC d e.2 2] else []) ++
    [wrapQ (headS d e.1 - headS d e.2)]

/-- Incoming messages of one destination node: (source feature, edge feature)
for every edge arriving at it, in edge-list order. -/
def msgsInto (edges : List (ℕ × ℕ)) (srcVal : ℕ → ℚ) (efeat : ℕ × ℕ → ℚ)
    (n : ℕ) : List (ℚ × ℚ) :=
  edges.filterMap fun e => if e.2 = n then some (srcVal e.1, efeat e) else none

/-- Modelled from the spec: one application of the AttentionLayer
collaborator (the layers module is not part of the provided sources).  Nodes
in the valid-index subset are updated from their own feature and their
incoming messages; all other rows pass through unchanged. -/
def attnApply (upd : ℚ → List (ℚ × ℚ) → ℚ) (edges : List (ℕ × ℕ))
    (efeat : ℕ × ℕ → ℚ) (vIdx : ℕ → Bool) (srcVal : ℕ → ℚ) (x : ℕ → ℚ) :
    ℕ → ℚ :=
  fun n => if vIdx n then upd (x n) (msgsInto edges srcVal efeat n) else x n

/-- Re-index a time-flattened feature map into time-major order
(`x_a.reshape(-1, T, H).transpose(0, 1).reshape(-1, H)`). -/
def toSview (A T : ℕ) (x : ℕ → ℚ) : ℕ → ℚ := fun m => x ((m % A) * T + (m / A))

/-- Re-index a time-major feature map back into time-flattened order. -/
def toTview (A T : ℕ) (y : ℕ → ℚ) : ℕ → ℚ := fun n => y ((n % T) * A + (n / T))

/-- Map-point embeddings (never updated by the layer stack). -/
def xMapEmb (p : DecParams) (d : DScene) : ℕ → ℚ :=
  fun m => p.embM (xMfeat p.inputDim d m) (d.mtype m)

/-- One decoder layer: temporal self-attention over the full-temporal graph,
map-to-agent cross-attention, then agent-to-agent cross-attention computed in
time-major indexing. -/
def layerStep (p : DecParams) (d : DScene) (i : ℕ) (x : ℕ → ℚ) : ℕ → ℚ :=
  let xa := attnApply (p.updT i) (fullEdges d)
    (fun e => p.rEmbT (relTimeFeat p d e)) (maskT d) x x
  let xb := attnApply (p.updM2A i) (m2aEdges p.clusterAvail p.inputDim p.kM2A d)
    (fun e => p.rEmbM2A (relM2AFeat p d e)) (maskT d) (xMapEmb p d) xa
  toTview d.A d.T
    (attnApply (p.updA2A i) (a2aEdges p.clusterAvail p.inputDim p.kA2A d)
      (fun e => p.rEmbA2A (relA2AFeat p d e)) (maskS d)
      (toSview d.A d.T xb) (toSview d.A d.T xb))

/-- The decoder forward computation after the input-dimension check: invalid
agent-time nodes keep an all-zero placeholder embedding, one patch-graph
fusion pass runs before the layer stack, then `num_layers` layers. -/
def decoderOut (p : DecParams) (d : DScene) : ℕ → ℚ :=
  let x0 : ℕ → ℚ := fun n =>
    if maskT d n then p.embA (xAfeat p d n) (d.atype (n / d.T)) else 0
  let x1 := attnApply p.updPatch (patchEdges d)
    (fun e => p.rEmbPatch (relTimeFeat p d e)) (maskT d) x0 x0
  (List.range p.numLayers).foldl (fun x i => layerStep p d i x) x1

/-- BehaviorGPTDecoder.forward with its input-dimension guard: the map
feature construction accepts dimensionalities 2 and 3 and raises a
ValueError on anything else. -/
def decoderForward (p : DecParams) (d : DScene) : Except String (ℕ → ℚ) :=
  if p.inputDim = 2 then .ok (decoderOut p d)
  else if p.inputDim = 3 then .ok (decoderOut p d)
  else .error "not a valid dimension"

/-- A scene with its mutable rollout state (position, heading, velocity,
validity) replaced; static fields (sizes, box dimensions, types, map) are
shared.  Used to express that the decoder output at a timestep is
insensitive to modifications of the mutable state at later timesteps. -/
def overrideDyn (d : DScene) (pos2 : ℕ → ℕ → ℕ → ℚ) (head2 : ℕ → ℕ → ℚ)
    (vel2 : ℕ → ℕ → ℕ → ℚ) (valid2 : ℕ → ℕ → Bool) : DScene :=
  { d with pos := pos2, heading := head2, vel := vel2, valid := valid2 }

/-! ## Concrete instances used by witnesses and counterexamples -/

/-- A rollout scene with all-zero state. -/
def exRzero : RScene :=
  { pos := fun _ _ _ => 0, vel := fun _ _ _ => 0, heading := fun _ _ => 0 }

/-- A chunk prediction whose heading prediction differs across sub-steps. -/
def exPredC4 : ChunkPred :=
  { pos := fun _ _ _ => 0, vel := fun _ _ _ => 0, theta := fun _ i _ => (i : ℚ) }

/-- A target-builder scene whose agent is invalid at timestep 0 but has a
nonzero position displacement between timesteps 0 and 1. -/
def exT6 : TScene :=
  { S := 2, posDim := 3
    pos := fun _ s c => if s = 1 ∧ c = 0 then 1 else 0
    vel := fun _ _ _ => 0
    heading := fun _ _ => 0
    valid := fun _ s => decide (s = 1) }

/-- A filter scene: three agents on a line, ego at index 0, no
track-to-predict agents, budget 2. -/
def exF7 : FScene :=
  { n := 3, T := 1, avIndex := 0
    valid := fun _ _ => true
    pos := fun _ _ => (0, 0)
    targetMask := fun _ => false
    id := fun i => 20 + i
    heading := fun _ _ => 0 }

/-- A filter scene exposing the av_index defect: ego at index 1, a
track-to-predict agent at index 0, budget 2. -/
def exF8 : FScene :=
  { n := 3, T := 1, avIndex := 1
    valid := fun _ _ => true
    pos := fun _ _ => (0, 0)
    targetMask := fun i => decide (i = 0)
    id := fun i => 10 + i
    heading := fun _ _ => 0 }

/-- A decoder scene: one scene, one agent, 11 timesteps, all valid. -/
def exD2 : DScene :=
  { agentSizes := [1], mapSizes := [1], T := 11
    valid := fun _ _ => true
    pos := fun _ _ _ => 0, heading := fun _ _ => 0, vel := fun _ _ _ => 0
    alen := fun _ _ => 0, awid := fun _ _ => 0, ahei := fun _ _ => 0
    atype := fun _ => 0
    mpos := fun _ _ => 0, morient := fun _ => 0, mtype := fun _ => 0
    mmag := fun _ => 0, mhei := fun _ => 0 }

/-- A two-scene decoder batch (2 + 1 agents, 1 + 1 map points, 11 steps). -/
def exD3 : DScene :=
  { agentSizes := [2, 1], mapSizes := [1, 1], T := 11
    valid := fun _ _ => true
    pos := fun _ _ _ => 0, heading := fun _ _ => 0, vel := fun _ _ _ => 0
    alen := fun _ _ => 0, awid := fun _ _ => 0, ahei := fun _ _ => 0
    atype := fun _ => 0
    mpos := fun _ _ => 0, morient := fun _ => 0, mtype := fun _ => 0
    mmag := fun _ => 0, mhei := fun _ => 0 }

/-- Concrete decoder parameters with simple aggregation functions. -/
def exP : DecParams :=
  { numLayers := 1, inputDim := 2, timeSpan := 10, kM2A := 1, kA2A := 1
    clusterAvail := true
    cosF := fun _ => 1, sinF := fun _ => 0
    normF := fun v => v.1 + v.2, angF := fun _ v => v.1 - v.2
    embA := fun l t => l.sum + t, embM := fun l t => l.sum + t
    rEmbPatch := fun l => l.sum, rEmbT := fun l => l.sum
    rEmbM2A := fun l => l.sum, rEmbA2A := fun l => l.sum
    updPatch := fun x m => x + (m.map fun q => q.1 + q.2).sum
    updT := fun _ x m => x + (m.map fun q => q.1 + q.2).sum
    updM2A := fun _ x m => x + (m.map fun q => q.1 + q.2).sum
    updA2A := fun _ x m => x + (m.map fun q => q.1 + q.2).sum }

/-- Decoder parameters configured with a temporal stride of 3. -/
def exP3 : DecParams := { exP with timeSpan := 3 }

/-- A two-scene decoder batch with a single timestep, used to exercise the
all-pairs fallback graphs. -/
def exD4 : DScene := { exD3 with T := 1 }

/-! # Theorems -/

/-! ## C9: input-dimension guard -/

/-- C9: the decoder forward pass raises a ValueError if and only if the
configured input dimensionality is neither 2 nor 3; for dimensionalities
2 and 3 the feature-construction step never raises on that account. -/
theorem c9_input_dim_guard (p : DecParams) (d : DScene) :
    (∃ msg, decoderForward p d = Except.error msg) ↔
      p.inputDim ≠ 2 ∧ p.inputDim ≠ 3 := by
  unfold decoderForward
  by_cases h2 : p.inputDim = 2
  · simp [h2]
  · by_cases h3 : p.inputDim = 3 <;> simp [h2, h3]

/-! ## C1: rollout leaves history untouched -/

/-- Frame property of one rollout chunk: any entry outside the chunk's
future slice is left unchanged. -/
theorem rolloutChunk_frame (cosF sinF : ℚ → ℚ) (velDim ni : ℕ)
    (pred : ChunkPred) (d : RScene) (t a s c : ℕ)
    (hs : ¬(ni + t * 10 ≤ s ∧ s < ni + (t + 1) * 10)) :
    (rolloutChunk cosF sinF velDim ni pred d t).pos a s c = d.pos a s c ∧
    (rolloutChunk cosF sinF velDim ni pred d t).vel a s c = d.vel a s c ∧
    (rolloutChunk cosF sinF velDim ni pred d t).heading a s = d.heading a s := by
  unfold rolloutChunk
  refine ⟨?_, ?_, ?_⟩ <;> simp only <;> rw [if_neg (by tauto)]

/-- C1: after any sequence of rollout chunks, the position, heading and
velocity entries at timesteps strictly before the initialization boundary
are identical to the input scene, and each chunk iteration overwrites only
the slice [ni + t*10, ni + (t+1)*10) of its own chunk index t. -/
theorem c1_rollout_history (cosF sinF : ℚ → ℚ) (velDim ni : ℕ)
    (steps : List (ChunkPred × ℕ)) (d : RScene) :
    (∀ a s c, s < ni →
      (rolloutRun cosF sinF velDim ni steps d).pos a s c = d.pos a s c ∧
      (rolloutRun cosF sinF velDim ni steps d).vel a s c = d.vel a s c ∧
      (rolloutRun cosF sinF velDim ni steps d).heading a s = d.heading a s) ∧
    (∀ (pred : ChunkPred) (t a s c : ℕ),
      ¬(ni + t * 10 ≤ s ∧ s < ni + (t + 1) * 10) →
      (rolloutChunk cosF sinF velDim ni pred d t).pos a s c = d.pos a s c ∧
      (rolloutChunk cosF sinF velDim ni pred d t).vel a s c = d.vel a s c ∧
      (rolloutChunk cosF sinF velDim ni pred d t).heading a s = d.heading a s) := by
  constructor
  · induction steps generalizing d with
    | nil => intro a s c _; exact ⟨rfl, rfl, rfl⟩
    | cons pt rest ih =>
      intro a s c hs
      have hstep := rolloutChunk_frame cosF sinF velDim ni pt.1 d pt.2 a s c
        (by intro hcon; omega)
      have hrec := ih (rolloutChunk cosF sinF velDim ni pt.1 d pt.2) a s c hs
      refine ⟨?_, ?_, ?_⟩
      · exact hrec.1.trans hstep.1
      · exact hrec.2.1.trans hstep.2.1
      · exact hrec.2.2.trans hstep.2.2
  · intro pred t a s c hs
    exact rolloutChunk_frame cosF sinF velDim ni pred d t a s c hs

/-- Witness for C1 at a concrete scene, prediction sequence and history
timestep. -/
theorem c1_rollout_history_witness :
    (3 < 11 ∧
      (rolloutRun (fun _ => 1) (fun _ => 0) 2 11 [(exPredC4, 0)] exRzero).pos 0 3 0 =
        exRzero.pos 0 3 0) ∧
    (¬(11 + 0 * 10 ≤ 3 ∧ 3 < 11 + (0 + 1) * 10) ∧
      (rolloutChunk (fun _ => 1) (fun _ => 0) 2 11 exPredC4 exRzero 0).heading 0 3 =
        exRzero.heading 0 3) := by
  refine ⟨⟨by norm_num, ?_⟩, ⟨by omega, ?_⟩⟩
  · exact ((c1_rollout_history (fun _ => 1) (fun _ => 0) 2 11 [(exPredC4, 0)]
      exRzero).1 0 3 0 (by norm_num)).1
  · exact ((c1_rollout_history (fun _ => 1) (fun _ => 0) 2 11 []
      exRzero).2 exPredC4 0 0 3 0 (by omega)).2.2

/-! ## C4: heading write-back within a chunk

The claim reads the source's `theta[..., 0]` as selecting the first
sub-step; it in fact selects component 0 of the heading dimension, so every
chunk timestep receives its own sub-step's heading prediction. -/

/-- C4 counterexample: with an anchor heading of zero and a heading
prediction that differs across sub-steps, the heading written at the second
chunk timestep is not the anchor heading plus the first sub-step's
prediction, refuting the claim as stated. -/
theorem c4_counterexample :
    (rolloutChunk (fun _ => 1) (fun _ => 0) 2 11 exPredC4 exRzero 0).heading 0 12 ≠
      wrapQ (exRzero.heading 0 (11 + 0 * 10 - 1) + exPredC4.theta 0 0 0) := by
  have hL : (rolloutChunk (fun _ => 1) (fun _ => 0) 2 11 exPredC4 exRzero 0).heading 0 12 =
      wrapQ 1 := by
    norm_num [rolloutChunk, exPredC4, exRzero]
  have hR : wrapQ (exRzero.heading 0 (11 + 0 * 10 - 1) + exPredC4.theta 0 0 0) =
      wrapQ 0 := by
    norm_num [exPredC4, exRzero]
  have h1 : wrapQ 1 = 1 := by
    unfold wrapQ
    norm_num
  have h0 : wrapQ 0 = 0 := by
    unfold wrapQ
    have hc : (⌈((0 : ℚ) - 1) / 2⌉ : ℤ) = 0 := by
      rw [Int.ceil_eq_iff]
      norm_num
    rw [hc]
    norm_num
  rw [hL, hR, h1, h0]
  exact one_ne_zero

/-- C4 (amended): each timestep of the written chunk receives the anchor
heading plus the heading prediction of its own sub-step (component 0 of the
heading dimension), while positions and velocities likewise use the full
per-sub-step prediction sequence. -/
theorem c4_chunk_substep (cosF sinF : ℚ → ℚ) (velDim ni : ℕ)
    (pred : ChunkPred) (d : RScene) (t a s : ℕ)
    (hlo : ni + t * 10 ≤ s) (hhi : s < ni + (t + 1) * 10) :
    (rolloutChunk cosF sinF velDim ni pred d t).heading a s =
      wrapQ (d.heading a (ni + t * 10 - 1) +
        pred.theta a (s - (ni + t * 10)) 0) ∧
    (rolloutChunk cosF sinF velDim ni pred d t).pos a s 0 =
      pred.pos a (s - (ni + t * 10)) 0 * cosF (d.heading a (ni + t * 10 - 1)) -
        pred.pos a (s - (ni + t * 10)) 1 * sinF (d.heading a (ni + t * 10 - 1)) +
        d.pos a (ni + t * 10 - 1) 0 ∧
    (0 < velDim →
      (rolloutChunk cosF sinF velDim ni pred d t).vel a s 0 =
        pred.vel a (s - (ni + t * 10)) 0 * cosF (d.heading a (ni + t * 10 - 1)) -
          pred.vel a (s - (ni + t * 10)) 1 * sinF (d.heading a (ni + t * 10 - 1))) := by
  unfold rolloutChunk
  refine ⟨?_, ?_, fun hv => ?_⟩ <;> simp only
  · rw [if_pos ⟨hlo, hhi⟩]
  · rw [if_pos ⟨hlo, hhi, by norm_num⟩]; simp
  · rw [if_pos ⟨hlo, hhi, hv⟩]; simp

/-- Witness for C4 (amended) at a concrete chunk timestep. -/
theorem c4_chunk_substep_witness :
    (11 + 0 * 10 ≤ 12 ∧ 12 < 11 + (0 + 1) * 10) ∧
    (rolloutChunk (fun _ => 1) (fun _ => 0) 2 11 exPredC4 exRzero 0).heading 0 12 =
      wrapQ (exRzero.heading 0 (11 + 0 * 10 - 1) +
        exPredC4.theta 0 (12 - (11 + 0 * 10)) 0) := by
  refine ⟨⟨by norm_num, by norm_num⟩, ?_⟩
  exact (c4_chunk_substep (fun _ => 1) (fun _ => 0) 2 11 exPredC4 exRzero 0 0 12
    (by norm_num) (by norm_num)).1

/-! ## C6: target-builder entries

The builder never reads the validity mask, so entries whose anchor or
target timestep is invalid (but still inside the horizon) are computed from
the stored arrays rather than zeroed; only beyond-horizon entries keep the
zero initialisation. -/

/-- C6 counterexample: an entry that is not predictable (its anchor
timestep 0 is invalid) yet holds a nonzero local-frame displacement,
refuting the claim as stated. -/
theorem c6_counterexample :
    exT6.valid 0 0 = false ∧
      simTarget (fun _ => 1) (fun _ => 0) exT6 0 0 0 0 ≠ 0 := by
  constructor
  · rfl
  · norm_num [simTarget, exT6]

/-- C6 (amended): entries beyond the look-ahead range or the horizon are
zero; every in-horizon entry — predictable or not, the validity mask is not
consulted — holds the local-frame relative position / vertical offset /
velocity / wrapped relative heading rotated into the frame of the heading at
the anchor timestep. -/
theorem c6_target_entries (cosF sinF : ℚ → ℚ) (d : TScene) (a s k c : ℕ) :
    (¬(k < 10 ∧ s + k + 1 < d.S) → simTarget cosF sinF d a s k c = 0) ∧
    (k < 10 → s + k + 1 < d.S →
      simTarget cosF sinF d a s k 0 =
        (d.pos a (s + k + 1) 0 - d.pos a s 0) * cosF (d.heading a s) +
          (d.pos a (s + k + 1) 1 - d.pos a s 1) * sinF (d.heading a s) ∧
      simTarget cosF sinF d a s k 1 =
        -((d.pos a (s + k + 1) 0 - d.pos a s 0) * sinF (d.heading a s)) +
          (d.pos a (s + k + 1) 1 - d.pos a s 1) * cosF (d.heading a s) ∧
      simTarget cosF sinF d a s k 2 =
        (if d.posDim = 3 then d.pos a (s + k + 1) 2 - d.pos a s 2 else 0) ∧
      simTarget cosF sinF d a s k 3 =
        d.vel a (s + k + 1) 0 * cosF (d.heading a s) +
          d.vel a (s + k + 1) 1 * sinF (d.heading a s) ∧
      simTarget cosF sinF d a s k 4 =
        -(d.vel a (s + k + 1) 0 * sinF (d.heading a s)) +
          d.vel a (s + k + 1) 1 * cosF (d.heading a s) ∧
      simTarget cosF sinF d a s k 5 =
        wrapQ (d.heading a (s + k + 1) - d.heading a s)) := by
  constructor
  · intro h
    unfold simTarget
    rw [if_neg h]
  · intro h1 h2
    unfold simTarget
    refine ⟨?_, ?_, ?_, ?_, ?_, ?_⟩ <;> rw [if_pos ⟨h1, h2⟩] <;> norm_num

/-- Witness for C6 (amended): a beyond-horizon entry evaluates to zero and
an in-horizon entry evaluates to the rotated displacement, at concrete
inputs. -/
theorem c6_target_entries_witness :
    (¬(0 < 10 ∧ 5 + 0 + 1 < exT6.S) ∧
      simTarget (fun _ => 1) (fun _ => 0) exT6 0 5 0 0 = 0) ∧
    ((0 < 10 ∧ 0 + 0 + 1 < exT6.S) ∧
      simTarget (fun _ => 1) (fun _ => 0) exT6 0 0 0 0 =
        (exT6.pos 0 (0 + 0 + 1) 0 - exT6.pos 0 0 0) * 1 +
          (exT6.pos 0 (0 + 0 + 1) 1 - exT6.pos 0 0 1) * 0) := by
  constructor
  · refine ⟨by norm_num [exT6], ?_⟩
    exact (c6_target_entries (fun _ => 1) (fun _ => 0) exT6 0 5 0 0).1
      (by norm_num [exT6])
  · refine ⟨by norm_num [exT6], ?_⟩
    exact ((c6_target_entries (fun _ => 1) (fun _ => 0) exT6 0 0 0 0).2
      (by norm_num) (by norm_num [exT6])).1

/-! ## C5: predictability mask and loss aggregation of training_step -/

/-- Folding any sequence of mask-writing iterations: offset column k holds
the validity conjunction when k was written and its target step is inside
the horizon, and the initial value otherwise. -/
theorem predictMask_fold (S : ℕ) (valid : ℕ → ℕ → Bool) (l : List ℕ)
    (pm0 : ℕ → ℕ → ℕ → Bool) (a s k : ℕ) :
    (l.foldl (fun pm t => predictMaskWrite S valid t pm) pm0) a s k =
      if k ∈ l ∧ s + k + 1 < S then valid a s && valid a (s + k + 1)
      else pm0 a s k := by
  induction l generalizing pm0 with
  | nil => simp
  | cons t ts ih =>
    simp only [List.foldl_cons]
    rw [ih]
    unfold predictMaskWrite
    by_cases hk : k ∈ ts ∧ s + k + 1 < S
    · rw [if_pos hk, if_pos ⟨List.mem_cons_of_mem t hk.1, hk.2⟩]
    · rw [if_neg hk]
      by_cases hkt : k = t
      · subst hkt
        by_cases hc : s + k + 1 < S
        · rw [if_pos ⟨rfl, hc⟩, if_pos ⟨List.mem_cons_self k ts, hc⟩]
        · rw [if_neg (fun h => hc h.2), if_neg (fun h => hc h.2)]
      · rw [if_neg (fun h => hkt h.1), if_neg (fun hcon => ?_)]
        rcases List.mem_cons.mp hcon.1 with h | h
        exacts [hkt h, hk ⟨h, hcon.2⟩]

/-- Closed form of the predictability mask for in-range offsets. -/
theorem predictMask_iff (S : ℕ) (valid : ℕ → ℕ → Bool) (a s k : ℕ)
    (hk : k < 10) :
    predictMask S valid a s k = true ↔
      s + k + 1 < S ∧ valid a s = true ∧ valid a (s + k + 1) = true := by
  unfold predictMask
  rw [predictMask_fold]
  by_cases h : s + k + 1 < S
  · rw [if_pos ⟨List.mem_range.mpr hk, h⟩]
    simp [h]
  · rw [if_neg (fun hcon => h hcon.2)]
    simp [h]

/-- The per-position offset count agrees with the cardinality of the set of
semantically predictable offsets. -/
theorem predictCount_eq (S : ℕ) (valid : ℕ → ℕ → Bool) (a s : ℕ) :
    predictCount S valid a s =
      ((Finset.range 10).filter fun k =>
        s + k + 1 < S ∧ valid a s = true ∧ valid a (s + k + 1) = true).card := by
  unfold predictCount
  rw [← List.toFinset_card_of_nodup ((List.nodup_range 10).filter _),
    List.toFinset_filter]
  have hbase : (List.range 10).toFinset = Finset.range 10 := rfl
  rw [hbase]
  congr 1
  apply Finset.filter_congr
  intro k hk
  simpa using predictMask_iff S valid a s k (Finset.mem_range.mp hk)

/-- `predict_mask.any(dim=-1)` agrees with the semantic existence of a
predictable offset. -/
theorem predictAny_iff (S : ℕ) (valid : ℕ → ℕ → Bool) (a s : ℕ) :
    predictAny S valid a s = true ↔
      ∃ k ∈ Finset.range 10,
        s + k + 1 < S ∧ valid a s = true ∧ valid a (s + k + 1) = true := by
  unfold predictAny
  rw [List.any_eq_true]
  constructor
  · rintro ⟨k, hk, hpm⟩
    have hk10 := List.mem_range.mp hk
    exact ⟨k, Finset.mem_range.mpr hk10,
      (predictMask_iff S valid a s k hk10).mp hpm⟩
  · rintro ⟨k, hk, hsem⟩
    have hk10 := Finset.mem_range.mp hk
    exact ⟨k, List.mem_range.mpr hk10,
      (predictMask_iff S valid a s k hk10).mpr hsem⟩

/-- Membership in the flattened (agent, timestep) grid. -/
theorem mem_pairList (A S : ℕ) (p : ℕ × ℕ) :
    p ∈ pairList A S ↔ p.1 < A ∧ p.2 < S := by
  have : pairList A S = List.range A ×ˢ List.range S := rfl
  rw [this]
  obtain ⟨a, s⟩ := p
  rw [List.mem_product]
  simp [List.mem_range]

/-- The flattened (agent, timestep) grid has no duplicates. -/
theorem pairList_nodup (A S : ℕ) : (pairList A S).Nodup := by
  have : pairList A S = List.range A ×ˢ List.range S := rfl
  rw [this]
  exact List.Nodup.product (List.nodup_range A) (List.nodup_range S)

/-- The flattened grid as a finite set. -/
theorem pairList_toFinset (A S : ℕ) :
    (pairList A S).toFinset = Finset.range A ×ˢ Finset.range S := by
  ext p
  rw [List.mem_toFinset, mem_pairList, Finset.mem_product]
  simp [Finset.mem_range]

/-- C5: the predictability mask at (agent, t, k) is true exactly when both
timestep t and timestep t + k + 1 lie inside the horizon and are valid, and
the returned loss is the per-window loss divided by the predictable-offset
count clamped to at least 1, averaged over the (agent, timestep) pairs with
at least one predictable offset. -/
theorem c5_training_loss (A S : ℕ) (valid : ℕ → ℕ → Bool) (raw : ℕ → ℕ → ℚ) :
    (∀ a s k, k < 10 →
      (predictMask S valid a s k = true ↔
        s + k + 1 < S ∧ valid a s = true ∧ valid a (s + k + 1) = true)) ∧
    (((Finset.range A ×ˢ Finset.range S).filter fun p =>
        ∃ k ∈ Finset.range 10,
          p.2 + k + 1 < S ∧ valid p.1 p.2 = true ∧
            valid p.1 (p.2 + k + 1) = true).Nonempty →
      trainingLoss A S valid raw =
        (∑ p in (Finset.range A ×ˢ Finset.range S).filter fun p =>
            ∃ k ∈ Finset.range 10,
              p.2 + k + 1 < S ∧ valid p.1 p.2 = true ∧
                valid p.1 (p.2 + k + 1) = true,
          raw p.1 p.2 /
            ((max ((Finset.range 10).filter (fun k =>
              p.2 + k + 1 < S ∧ valid p.1 p.2 = true ∧
                valid p.1 (p.2 + k + 1) = true)).card 1 : ℕ) : ℚ)) /
        (((Finset.range A ×ˢ Finset.range S).filter fun p =>
            ∃ k ∈ Finset.range 10,
              p.2 + k + 1 < S ∧ valid p.1 p.2 = true ∧
                valid p.1 (p.2 + k + 1) = true).card : ℚ)) := by
  constructor
  · intro a s k hk
    exact predictMask_iff S valid a s k hk
  · intro _
    unfold trainingLoss
    simp only
    have hnodup : ((pairList A S).filter fun p => predictAny S valid p.1 p.2).Nodup :=
      (pairList_nodup A S).filter _
    have hset : ((pairList A S).filter fun p => predictAny S valid p.1 p.2).toFinset =
        (Finset.range A ×ˢ Finset.range S).filter fun p =>
          ∃ k ∈ Finset.range 10,
            p.2 + k + 1 < S ∧ valid p.1 p.2 = true ∧
              valid p.1 (p.2 + k + 1) = true := by
      rw [List.toFinset_filter, pairList_toFinset]
      apply Finset.filter_congr
      intro p _
      simpa using predictAny_iff S valid p.1 p.2
    have hsum := List.sum_toFinset
      (fun p : ℕ × ℕ => raw p.1 p.2 / ((max (predictCount S valid p.1 p.2) 1 : ℕ) : ℚ))
      hnodup
    have hlen := List.toFinset_card_of_nodup hnodup
    rw [← hsum, ← hlen, hset]
    congr 1
    apply Finset.sum_congr rfl
    intro p _
    rw [predictCount_eq]

/-- Witness for C5 at a concrete single-agent three-timestep scene with unit
raw losses. -/
theorem c5_training_loss_witness :
    (0 + 0 + 1 < 3 ∧
      (predictMask 3 (fun _ _ => true) 0 0 0 = true ↔
        0 + 0 + 1 < 3 ∧ (fun (_ _ : ℕ) => true) 0 0 = true ∧
          (fun (_ _ : ℕ) => true) 0 (0 + 0 + 1) = true)) ∧
    (((Finset.range 1 ×ˢ Finset.range 3).filter fun p =>
        ∃ k ∈ Finset.range 10,
          p.2 + k + 1 < 3 ∧ (fun (_ _ : ℕ) => true) p.1 p.2 = true ∧
            (fun (_ _ : ℕ) => true) p.1 (p.2 + k + 1) = true).Nonempty ∧
      trainingLoss 1 3 (fun _ _ => true) (fun _ _ => 1) =
        (∑ p in (Finset.range 1 ×ˢ Finset.range 3).filter fun p =>
            ∃ k ∈ Finset.range 10,
              p.2 + k + 1 < 3 ∧ (fun (_ _ : ℕ) => true) p.1 p.2 = true ∧
                (fun (_ _ : ℕ) => true) p.1 (p.2 + k + 1) = true,
          (1 : ℚ) /
            ((max ((Finset.range 10).filter (fun k =>
              p.2 + k + 1 < 3 ∧ (fun (_ _ : ℕ) => true) p.1 p.2 = true ∧
                (fun (_ _ : ℕ) => true) p.1 (p.2 + k + 1) = true)).card 1 : ℕ) : ℚ)) /
        (((Finset.range 1 ×ˢ Finset.range 3).filter fun p =>
            ∃ k ∈ Finset.range 10,
              p.2 + k + 1 < 3 ∧ (fun (_ _ : ℕ) => true) p.1 p.2 = true ∧
                (fun (_ _ : ℕ) => true) p.1 (p.2 + k + 1) = true).card : ℚ)) := by
  refine ⟨⟨by norm_num, (c5_training_loss 1 3 (fun _ _ => true) (fun _ _ => 1)).1 0 0 0
    (by norm_num)⟩, ⟨⟨(0, 0), by decide⟩, ?_⟩⟩
  exact (c5_training_loss 1 3 (fun _ _ => true) (fun _ _ => 1)).2 ⟨(0, 0), by decide⟩

/-! ## C7 / C8: agent-set downselection -/

/-- Inserting grows the length by one. -/
theorem length_insOrd {α : Type} (le : α → α → Bool) (x : α) (l : List α) :
    (insOrd le x l).length = l.length + 1 := by
  induction l with
  | nil => rfl
  | cons y ys ih =>
    unfold insOrd
    by_cases h : le x y = true
    · rw [if_pos h]; rfl
    · rw [if_neg h]
      simp [ih]

/-- Sorting preserves the length. -/
theorem length_sortOrd {α : Type} (le : α → α → Bool) (l : List α) :
    (sortOrd le l).length = l.length := by
  induction l with
  | nil => rfl
  | cons y ys ih =>
    unfold sortOrd at ih ⊢
    simp [List.foldr_cons, length_insOrd, ih]

/-- Membership through insertion. -/
theorem mem_insOrd {α : Type} (le : α → α → Bool) (x a : α) (l : List α) :
    a ∈ insOrd le x l ↔ a = x ∨ a ∈ l := by
  induction l with
  | nil => simp [insOrd]
  | cons y ys ih =>
    unfold insOrd
    by_cases h : le x y = true
    · rw [if_pos h]
      simp [or_comm, or_assoc, or_left_comm]
    · rw [if_neg h]
      simp [ih]
      tauto

/-- Sorting preserves membership. -/
theorem mem_sortOrd {α : Type} (le : α → α → Bool) (a : α) (l : List α) :
    a ∈ sortOrd le l ↔ a ∈ l := by
  induction l with
  | nil => simp [sortOrd]
  | cons y ys ih =>
    unfold sortOrd at ih ⊢
    simp only [List.foldr_cons, mem_insOrd, List.mem_cons, ih]

/-- A top-k selection returns at most k indices. -/
theorem topkSmall_length_le (key : ℕ → WithTop ℚ) (n k : ℕ) :
    (topkSmall key n k).length ≤ k := by
  unfold topkSmall
  exact List.length_take_le k _

/-- A top-k selection (largest) returns at most k indices. -/
theorem topkLarge_length_le (key : ℕ → WithBot ℤ) (n k : ℕ) :
    (topkLarge key n k).length ≤ k := by
  unfold topkLarge
  exact List.length_take_le k _

/-- Membership in the deduplicated sorted list. -/
theorem mem_uniqueSorted (n : ℕ) (l : List ℕ) (x : ℕ) :
    x ∈ uniqueSorted n l ↔ x < n ∧ x ∈ l := by
  unfold uniqueSorted
  simp [List.mem_filter, List.mem_range]

/-- Deduplication never grows the list. -/
theorem uniqueSorted_length_le (n : ℕ) (l : List ℕ) :
    (uniqueSorted n l).length ≤ l.length := by
  have hnodup : (uniqueSorted n l).Nodup := (List.nodup_range n).filter _
  calc (uniqueSorted n l).length
      = (uniqueSorted n l).toFinset.card := (List.toFinset_card_of_nodup hnodup).symm
    _ ≤ l.toFinset.card := by
        apply Finset.card_le_card
        intro x hx
        rw [List.mem_toFinset] at hx ⊢
        exact ((mem_uniqueSorted n l x).mp hx).2
    _ ≤ l.length := List.toFinset_card_le l

/-- After the distance pass the selection stays within the budget. -/
theorem distInds_length_le (maxNum hist : ℕ) (d : FScene)
    (h : (baseInds d).length ≤ maxNum) :
    (distInds maxNum hist d).length ≤ maxNum := by
  unfold distInds
  simp only [List.length_append]
  have key : ∀ m, m ≤ maxNum - (baseInds d).length →
      (baseInds d).length + m ≤ maxNum := fun m hm => by omega
  apply key
  exact le_trans (List.length_filter_le _ _)
    (le_trans (topkSmall_length_le _ _ _) (min_le_left _ _))

/-- After the valid-count pass the selection stays within the budget. -/
theorem stateInds_length_le (maxNum hist : ℕ) (d : FScene)
    (h : (baseInds d).length ≤ maxNum) :
    (stateInds maxNum hist d).length ≤ maxNum := by
  have hd := distInds_length_le maxNum hist d h
  unfold stateInds
  by_cases hb : (distInds maxNum hist d).length < maxNum
  · rw [if_pos hb]
    simp only [List.length_append]
    have key : ∀ m, m ≤ maxNum - (distInds maxNum hist d).length →
        (distInds maxNum hist d).length + m ≤ maxNum := fun m hm => by omega
    apply key
    exact le_trans (List.length_filter_le _ _)
      (le_trans (topkLarge_length_le _ _ _) (min_le_left _ _))
  · rw [if_neg hb]
    exact hd

/-- The unconditionally kept indices survive every later pass. -/
theorem baseInds_subset_stateInds (maxNum hist : ℕ) (d : FScene) (x : ℕ)
    (hx : x ∈ baseInds d) : x ∈ stateInds maxNum hist d := by
  have h1 : x ∈ distInds maxNum hist d := by
    unfold distInds
    exact List.mem_append_left _ hx
  unfold stateInds
  by_cases hb : (distInds maxNum hist d).length < maxNum
  · rw [if_pos hb]
    exact List.mem_append_left _ h1
  · rw [if_neg hb]
    exact h1

/-- C7: whenever the downselection succeeds on an over-budget scene, the
output has at most max_num_agents agents, still contains the ego agent and
every track-to-predict agent, and its id array is the input id array
restricted to the kept indices. -/
theorem c7_downselection (maxNum hist : ℕ) (d : FScene) (kept : List ℕ)
    (hn : maxNum < d.n) (hav : d.avIndex < d.n)
    (hk : keptInds maxNum hist d = some kept) :
    simAgentFilter maxNum hist d = some (reindexScene d kept) ∧
    (reindexScene d kept).n ≤ maxNum ∧
    d.avIndex ∈ kept ∧
    (∀ i, i < d.n → d.targetMask i = true → i ∈ kept) ∧
    (∀ j, (reindexScene d kept).id j = d.id (kept.getD j 0)) := by
  unfold keptInds at hk
  by_cases hbase : maxNum < (baseInds d).length
  · rw [if_pos hbase] at hk
    exact absurd hk (by simp)
  · rw [if_neg hbase] at hk
    have hkept : kept = uniqueSorted d.n (stateInds maxNum hist d) :=
      (Option.some_inj.mp hk).symm
    refine ⟨?_, ?_, ?_, ?_, fun j => rfl⟩
    · unfold simAgentFilter
      rw [if_neg (not_le.mpr hn)]
      unfold keptInds
      rw [if_neg hbase, hkept]
      rfl
    · show kept.length ≤ maxNum
      rw [hkept]
      exact le_trans (uniqueSorted_length_le _ _)
        (stateInds_length_le maxNum hist d (not_lt.mp hbase))
    · rw [hkept, mem_uniqueSorted]
      exact ⟨hav, baseInds_subset_stateInds maxNum hist d _
        (List.mem_cons_self _ _)⟩
    · intro i hi hti
      rw [hkept, mem_uniqueSorted]
      refine ⟨hi, baseInds_subset_stateInds maxNum hist d _ ?_⟩
      unfold baseInds
      exact List.mem_cons_of_mem _
        (List.mem_filter.mpr ⟨List.mem_range.mpr hi, hti⟩)

/-- Witness for C7 at a concrete over-budget scene (budget 2, three
agents). -/
theorem c7_downselection_witness :
    (2 < exF7.n ∧ exF7.avIndex < exF7.n ∧ keptInds 2 1 exF7 = some [0, 1]) ∧
    (simAgentFilter 2 1 exF7 = some (reindexScene exF7 [0, 1]) ∧
      (reindexScene exF7 [0, 1]).n ≤ 2 ∧
      exF7.avIndex ∈ [0, 1] ∧
      (∀ i, i < exF7.n → exF7.targetMask i = true → i ∈ [0, 1]) ∧
      (∀ j, (reindexScene exF7 [0, 1]).id j = exF7.id ([0, 1].getD j 0))) := by
  have hke : keptInds 2 1 exF7 = some [0, 1] := by
    norm_num [keptInds, stateInds, distInds, baseInds, topkSmall, topkLarge,
      sortOrd, insOrd, uniqueSorted, dist2, exF7, List.range_succ]
  refine ⟨⟨by norm_num [exF7], by norm_num [exF7], hke⟩, ?_⟩
  exact c7_downselection 2 1 exF7 [0, 1] (by norm_num [exF7])
    (by norm_num [exF7]) hke

/-- C8 (code defect): after the filter, av_index is reset to the constant 0
although torch.unique sorts the kept indices; at this concrete input a
track-to-predict agent with a smaller original index than the ego ends up at
position 0, so the agent at the stored av_index is not the ego (the ego sits
at position 1). -/
theorem c8_av_index_bug :
    keptInds 2 1 exF8 = some [0, 1] ∧
    (reindexScene exF8 [0, 1]).avIndex = 0 ∧
    (reindexScene exF8 [0, 1]).id 0 ≠ exF8.id exF8.avIndex ∧
    (reindexScene exF8 [0, 1]).id 1 = exF8.id exF8.avIndex := by
  refine ⟨?_, rfl, by norm_num [reindexScene, exF8], by norm_num [reindexScene, exF8]⟩
  norm_num [keptInds, stateInds, distInds, baseInds, topkSmall, topkLarge,
    sortOrd, insOrd, uniqueSorted, dist2, exF8, List.range_succ]

/-! ## C2: full-temporal edge gaps -/

/-- Structure of the causal temporal pair list: each edge joins two valid
timesteps of one agent, with the source strictly earlier. -/
theorem tPairs_mem_elim {d : DScene} {e : ℕ × ℕ} (he : e ∈ tPairs d) :
    ∃ a i j, a < d.A ∧ i < d.T ∧ j < d.T ∧ i < j ∧
      d.valid a i = true ∧ d.valid a j = true ∧
      e = (a * d.T + i, a * d.T + j) := by
  unfold tPairs at he
  rw [List.mem_flatMap] at he
  obtain ⟨a, ha, he⟩ := he
  rw [List.mem_flatMap] at he
  obtain ⟨i, hi, he⟩ := he
  rw [List.mem_filterMap] at he
  obtain ⟨j, hj, hf⟩ := he
  rw [List.mem_range] at ha hi hj
  by_cases hc : (d.valid a i && d.valid a j && decide (i < j)) = true
  · rw [if_pos hc] at hf
    rw [Bool.and_eq_true, Bool.and_eq_true, decide_eq_true_eq] at hc
    exact ⟨a, i, j, ha, hi, hj, hc.2, hc.1.1, hc.1.2, (Option.some_inj.mp hf).symm⟩
  · rw [if_neg hc] at hf
    exact absurd hf (by simp)

/-- C2 counterexample: with the stride configured to 3, the full-temporal
graph still contains an edge of gap 10 (the source filters with the literal
constant 10, not with time_span), so the gap is not a positive multiple of
the configured stride. -/
theorem c2_counterexample :
    exP3.timeSpan = 3 ∧ ((0, 10) ∈ fullEdges exD2) ∧
      ¬ ∃ m, 0 < m ∧ (10 : ℕ) - 0 = exP3.timeSpan * m := by
  refine ⟨rfl, by decide, ?_⟩
  rintro ⟨m, hm, he⟩
  have h3 : exP3.timeSpan = 3 := rfl
  rw [h3] at he
  omega

/-- C2 (amended): every edge of the full-temporal graph has a timestep gap
(destination minus source) that is a positive multiple of the constant 10,
irrespective of the configured time_span. -/
theorem c2_full_temporal_gap (d : DScene) :
    ∀ e ∈ fullEdges d, ∃ m, 0 < m ∧ e.2 - e.1 = 10 * m := by
  intro e he
  unfold fullEdges at he
  rw [List.mem_filter] at he
  obtain ⟨hp, hmod⟩ := he
  obtain ⟨a, i, j, _, _, _, hij, _, _, heq⟩ := tPairs_mem_elim hp
  rw [decide_eq_true_eq] at hmod
  have hgap : e.2 - e.1 = j - i := by rw [heq]; simp; omega
  rw [hgap] at hmod ⊢
  exact ⟨(j - i) / 10, by omega, by omega⟩

/-- Witness for C2 (amended) at a concrete edge of a concrete scene. -/
theorem c2_full_temporal_gap_witness :
    (0, 10) ∈ fullEdges exD2 ∧
      ∃ m, 0 < m ∧ ((0, 10) : ℕ × ℕ).2 - ((0, 10) : ℕ × ℕ).1 = 10 * m :=
  ⟨by decide, c2_full_temporal_gap exD2 (0, 10) (by decide)⟩

/-! ## C3: cross-scene isolation of the four graphs -/

/-- Indices below the total size fall into a real segment. -/
theorem batchOf_lt (sizes : List ℕ) (a : ℕ) (ha : a < sizes.sum) :
    batchOf sizes a < sizes.length := by
  induction sizes generalizing a with
  | nil => simp at ha
  | cons sz rest ih =>
    unfold batchOf
    by_cases h : a < sz
    · rw [if_pos h]
      simp
    · rw [if_neg h]
      have : a - sz < rest.sum := by
        simp only [List.sum_cons] at ha
        omega
      simpa using ih (a - sz) this

/-- Agent extraction from a time-flattened node index. -/
theorem tnode_div (a i T : ℕ) (hi : i < T) : (a * T + i) / T = a := by
  rw [Nat.add_comm, Nat.add_mul_div_right i a (by omega)]
  rw [Nat.div_eq_of_lt hi]
  omega

/-- Timestep extraction from a time-flattened node index. -/
theorem tnode_mod (a i T : ℕ) (hi : i < T) : (a * T + i) % T = i := by
  rw [Nat.add_comm, Nat.add_mul_mod_self_right]
  exact Nat.mod_eq_of_lt hi

/-- A nearest-neighbour selection only returns pre-filtered candidates. -/
theorem knnFrom_subset {cands : List ℕ} {posOf : ℕ → ℚ × ℚ} {q : ℚ × ℚ}
    {k x : ℕ} (hx : x ∈ knnFrom cands posOf q k) : x ∈ cands := by
  unfold knnFrom at hx
  exact (mem_sortOrd _ _ _).mp (List.mem_of_mem_take hx)

/-- Edges of the bipartite all-pairs fallback stay within corresponding
segments: the segment of the source equals the segment of the destination,
and both indices lie below the respective totals. -/
theorem cgBip_elim (ss ts : List ℕ) (e : ℕ × ℕ) (he : e ∈ cgBip ss ts) :
    batchOf ss e.1 = batchOf ts e.2 ∧ e.1 < ss.sum ∧ e.2 < ts.sum := by
  induction ss generalizing ts e with
  | nil => cases ts <;> simp [cgBip] at he
  | cons s ss' ih =>
    cases ts with
    | nil => simp [cgBip] at he
    | cons t ts' =>
      unfold cgBip at he
      rw [List.mem_append] at he
      rcases he with he | he
      · rw [List.mem_flatMap] at he
        obtain ⟨i, hi, he⟩ := he
        rw [List.mem_map] at he
        obtain ⟨j, hj, hej⟩ := he
        rw [List.mem_range] at hi hj
        subst hej
        unfold batchOf
        rw [if_pos hi, if_pos hj]
        refine ⟨rfl, ?_, ?_⟩ <;> simp [List.sum_cons] <;> omega
      · rw [List.mem_map] at he
        obtain ⟨f, hf, hef⟩ := he
        obtain ⟨hb, h1, h2⟩ := ih ts' f hf
        subst hef
        unfold batchOf
        rw [if_neg (by omega), if_neg (by omega)]
        simp only [Nat.add_sub_cancel]
        refine ⟨by omega, ?_, ?_⟩ <;> simp [List.sum_cons] <;> omega

/-- Edges of the monopartite all-pairs fallback stay within one segment and
join distinct nodes below the total. -/
theorem cgMono_elim (ss : List ℕ) (e : ℕ × ℕ) (he : e ∈ cgMono ss) :
    batchOf ss e.1 = batchOf ss e.2 ∧ e.1 ≠ e.2 ∧
      e.1 < ss.sum ∧ e.2 < ss.sum := by
  induction ss generalizing e with
  | nil => simp [cgMono] at he
  | cons s ss' ih =>
    unfold cgMono at he
    rw [List.mem_append] at he
    rcases he with he | he
    · rw [List.mem_flatMap] at he
      obtain ⟨i, hi, he⟩ := he
      rw [List.mem_map] at he
      obtain ⟨j, hj, hej⟩ := he
      rw [List.mem_filter] at hj
      rw [List.mem_range] at hi
      have hj' := List.mem_range.mp hj.1
      have hne := decide_eq_true_eq.mp hj.2
      subst hej
      unfold batchOf
      rw [if_pos hi, if_pos hj']
      refine ⟨rfl, by simpa using fun hc => hne hc.symm, ?_, ?_⟩ <;>
        simp [List.sum_cons] <;> omega
    · rw [List.mem_map] at he
      obtain ⟨f, hf, hef⟩ := he
      obtain ⟨hb, hne, h1, h2⟩ := ih f hf
      subst hef
      unfold batchOf
      rw [if_neg (by omega), if_neg (by omega)]
      simp only [Nat.add_sub_cancel]
      refine ⟨by omega, by simpa using fun hc => hne (by omega), ?_, ?_⟩ <;>
        simp [List.sum_cons] <;> omega

/-- Segments scaled by the timestep count classify an index by its agent. -/
theorem batchOf_scaled (sizes : List ℕ) (T n : ℕ) (hT : 0 < T) :
    batchOf (sizes.map fun z => z * T) n = batchOf sizes (n / T) := by
  induction sizes generalizing n with
  | nil => rfl
  | cons s rest ih =>
    simp only [List.map_cons]
    unfold batchOf
    by_cases h : n < s * T
    · rw [if_pos h, if_pos (by
        rw [Nat.div_lt_iff_lt_mul hT]
        omega)]
    · rw [if_neg h, if_neg (by
        rw [Nat.div_lt_iff_lt_mul hT]
        omega)]
      have harg : (n - s * T) / T = n / T - s := by
        rw [Nat.mul_comm s T]
        exact Nat.sub_mul_div n T s (by
          have := Nat.mul_comm s T
          omega)
      rw [ih, harg]

/-- Splitting the monopartite all-pairs construction across a list
concatenation. -/
theorem cgMono_append (u v : List ℕ) (e : ℕ × ℕ) (he : e ∈ cgMono (u ++ v)) :
    (e ∈ cgMono u ∧ e.1 < u.sum ∧ e.2 < u.sum) ∨
      (∃ f, f ∈ cgMono v ∧ e = (f.1 + u.sum, f.2 + u.sum)) := by
  induction u generalizing e with
  | nil =>
    right
    exact ⟨e, by simpa using he, by simp⟩
  | cons s u' ih =>
    rw [List.cons_append] at he
    unfold cgMono at he
    rw [List.mem_append] at he
    rcases he with he | he
    · left
      have hb : e.1 < s ∧ e.2 < s := by
        rw [List.mem_flatMap] at he
        obtain ⟨i, hi, he⟩ := he
        rw [List.mem_map] at he
        obtain ⟨j, hj, hej⟩ := he
        rw [List.mem_filter] at hj
        subst hej
        exact ⟨List.mem_range.mp hi, List.mem_range.mp hj.1⟩
      refine ⟨?_, ?_, ?_⟩
      · unfold cgMono
        rw [List.mem_append]
        left
        exact he
      · simp only [List.sum_cons]; omega
      · simp only [List.sum_cons]; omega
    · rw [List.mem_map] at he
      obtain ⟨f, hf, hef⟩ := he
      rcases ih f hf with ⟨hin, h1, h2⟩ | ⟨g, hg, hfg⟩
      · left
        subst hef
        refine ⟨?_, ?_, ?_⟩
        · unfold cgMono
          rw [List.mem_append]
          right
          exact List.mem_map.mpr ⟨f, hin, rfl⟩
        · simp only [List.sum_cons]; omega
        · simp only [List.sum_cons]; omega
      · right
        subst hef
        refine ⟨g, hg, ?_⟩
        simp only [hfg, List.sum_cons, Prod.mk.injEq]
        constructor <;> omega

/-- Edges of the agent-to-agent fallback segments join two distinct nodes of
the same timestep and the same scene, both inside the node universe. -/
theorem a2aSegs_elim (d : DScene) (e : ℕ × ℕ) (he : e ∈ cgMono (a2aSegs d)) :
    e.1 / d.A = e.2 / d.A ∧
      batchOf d.agentSizes (e.1 % d.A) = batchOf d.agentSizes (e.2 % d.A) ∧
      e.1 ≠ e.2 ∧ e.1 < d.A * d.T ∧ e.2 < d.A * d.T := by
  have aux : ∀ (T : ℕ) (e : ℕ × ℕ),
      e ∈ cgMono (List.replicate T d.agentSizes).flatten →
      e.1 / d.A = e.2 / d.A ∧
        batchOf d.agentSizes (e.1 % d.A) = batchOf d.agentSizes (e.2 % d.A) ∧
        e.1 ≠ e.2 ∧ e.1 < d.A * T ∧ e.2 < d.A * T := by
    intro T
    induction T with
    | zero => intro e he; simp [cgMono] at he
    | succ T ih =>
      intro e he
      rw [List.replicate_succ, List.flatten_cons] at he
      rcases cgMono_append d.agentSizes _ e he with ⟨hin, h1, h2⟩ | ⟨f, hf, hef⟩
      · obtain ⟨hb, hne, _, _⟩ := cgMono_elim _ _ hin
        have hA1 : e.1 < d.A := h1
        have hA2 : e.2 < d.A := h2
        have hmul : d.A * (T + 1) = d.A * T + d.A := by ring
        refine ⟨?_, ?_, hne, by omega, by omega⟩
        · rw [Nat.div_eq_of_lt hA1, Nat.div_eq_of_lt hA2]
        · rw [Nat.mod_eq_of_lt hA1, Nat.mod_eq_of_lt hA2]
          exact hb
      · obtain ⟨hdiv, hmod, hne, hb1, hb2⟩ := ih f hf
        have hA : 0 < d.A := by
          rcases Nat.eq_zero_or_pos d.A with h0 | h0
          · rw [h0] at hb1; omega
          · exact h0
        have hsum : (d.agentSizes.sum : ℕ) = d.A := rfl
        rw [hef]
        have hmul : d.A * (T + 1) = d.A * T + d.A := by ring
        refine ⟨?_, ?_, ?_, ?_, ?_⟩
        · simp only [hsum]
          rw [Nat.add_div_right _ hA, Nat.add_div_right _ hA, hdiv]
        · simp only [hsum]
          rw [Nat.add_mod_right, Nat.add_mod_right]
          exact hmod
        · simp only [hsum, Prod.mk.injEq]
          intro hc
          exact hne (by omega)
        · simp only [hsum]; omega
        · simp only [hsum]; omega
  exact aux d.T e he

/-- Structure of a nearest-neighbour map-to-agent edge: the map source and
the agent-time destination share the scene. -/
theorem m2aKnn_elim (d : DScene) (k : ℕ) (e : ℕ × ℕ) (he : e ∈ m2aKnn d k) :
    batchOf d.mapSizes e.1 = sceneOfT d e.2 ∧ e.2 < d.A * d.T ∧ e.1 < d.M := by
  unfold m2aKnn at he
  rw [List.mem_flatMap] at he
  obtain ⟨q, hq, he⟩ := he
  rw [List.mem_map] at he
  obtain ⟨m, hm, hem⟩ := he
  have hc := knnFrom_subset hm
  rw [List.mem_filter] at hc
  subst hem
  exact ⟨decide_eq_true_eq.mp hc.2, List.mem_range.mp hq, List.mem_range.mp hc.1⟩

/-- Structure of a nearest-neighbour agent-to-agent edge: two distinct nodes
of the same (scene, timestep) group. -/
theorem a2aKnn_elim (d : DScene) (k : ℕ) (e : ℕ × ℕ) (he : e ∈ a2aKnn d k) :
    batchS d e.1 = batchS d e.2 ∧ e.1 ≠ e.2 ∧
      e.1 < d.A * d.T ∧ e.2 < d.A * d.T := by
  unfold a2aKnn at he
  rw [List.mem_flatMap] at he
  obtain ⟨q, hq, he⟩ := he
  rw [List.mem_map] at he
  obtain ⟨c, hc, hec⟩ := he
  have hcand := knnFrom_subset hc
  rw [List.mem_filter, Bool.and_eq_true] at hcand
  subst hec
  exact ⟨decide_eq_true_eq.mp hcand.2.2, decide_eq_true_eq.mp hcand.2.1,
    List.mem_range.mp hcand.1, List.mem_range.mp hq⟩

/-- Two in-range nodes with the same (scene, timestep) grouping value share
both the scene and the timestep. -/
theorem batchS_eq_elim (d : DScene) {m n : ℕ} (hm : m < d.A * d.T)
    (_hn : n < d.A * d.T) (h : batchS d m = batchS d n) :
    batchOf d.agentSizes (m % d.A) = batchOf d.agentSizes (n % d.A) ∧
      m / d.A = n / d.A := by
  have hA : 0 < d.A := by
    rcases Nat.eq_zero_or_pos d.A with h0 | h0
    · rw [h0] at hm; omega
    · exact h0
  have hsum : (d.agentSizes.sum : ℕ) = d.A := rfl
  have hG : 0 < d.agentSizes.length := by
    rcases Nat.eq_zero_or_pos d.agentSizes.length with h0 | h0
    · exfalso
      have : d.agentSizes = [] := List.length_eq_zero.mp h0
      have : d.A = 0 := by
        show d.agentSizes.sum = 0
        rw [this]; rfl
      omega
    · exact h0
  have hbm : batchOf d.agentSizes (m % d.A) < d.agentSizes.length :=
    batchOf_lt _ _ (by rw [hsum]; exact Nat.mod_lt m hA)
  have hbn : batchOf d.agentSizes (n % d.A) < d.agentSizes.length :=
    batchOf_lt _ _ (by rw [hsum]; exact Nat.mod_lt n hA)
  unfold batchS at h
  have hdiv : m / d.A = n / d.A := by
    have h1 : (batchOf d.agentSizes (m % d.A) +
        d.agentSizes.length * (m / d.A)) / d.agentSizes.length = m / d.A := by
      rw [Nat.add_mul_div_left _ _ hG, Nat.div_eq_of_lt hbm]
      omega
    have h2 : (batchOf d.agentSizes (n % d.A) +
        d.agentSizes.length * (n / d.A)) / d.agentSizes.length = n / d.A := by
      rw [Nat.add_mul_div_left _ _ hG, Nat.div_eq_of_lt hbn]
      omega
    rw [← h1, ← h2, h]
  refine ⟨?_, hdiv⟩
  rw [hdiv] at h
  omega

/-- Scene classification of a time-flattened node built from agent and
timestep. -/
theorem sceneOfT_node (d : DScene) (a i : ℕ) (hi : i < d.T) :
    sceneOfT d (a * d.T + i) = batchOf d.agentSizes a := by
  unfold sceneOfT
  rw [tnode_div a i d.T hi]

/-- C3: in every forward pass over a (multi-scene) batch, no edge of the
patch-temporal, full-temporal, map-to-agent or agent-to-agent graph connects
nodes of different scenes, in both the nearest-neighbour path and the
all-pairs fallback path. -/
theorem c3_cross_scene_isolation (d : DScene) (hT : 0 < d.T) :
    (∀ e ∈ patchEdges d, sceneOfT d e.1 = sceneOfT d e.2) ∧
    (∀ e ∈ fullEdges d, sceneOfT d e.1 = sceneOfT d e.2) ∧
    (∀ (avail : Bool) (inputDim k : ℕ), ∀ e ∈ m2aEdges avail inputDim k d,
      batchOf d.mapSizes e.1 = sceneOfT d e.2) ∧
    (∀ (avail : Bool) (inputDim k : ℕ), ∀ e ∈ a2aEdges avail inputDim k d,
      sceneOfS d e.1 = sceneOfS d e.2) := by
  have htemp : ∀ e ∈ tPairs d, sceneOfT d e.1 = sceneOfT d e.2 := by
    intro e he
    obtain ⟨a, i, j, _, hi, hj, _, _, _, heq⟩ := tPairs_mem_elim he
    rw [heq]
    simp only
    rw [sceneOfT_node d a i hi, sceneOfT_node d a j hj]
  refine ⟨?_, ?_, ?_, ?_⟩
  · intro e he
    exact htemp e (List.mem_filter.mp he).1
  · intro e he
    exact htemp e (List.mem_filter.mp he).1
  · intro avail inputDim k e he
    unfold m2aEdges at he
    cases avail with
    | true =>
      rw [if_pos rfl] at he
      unfold m2aEdgesKnn at he
      exact (m2aKnn_elim d k e (List.mem_filter.mp he).1).1
    | false =>
      rw [if_neg (by simp)] at he
      unfold m2aEdgesFb at he
      have hcg := (List.mem_filter.mp (List.mem_filter.mp he).1).1
      obtain ⟨hb, _, _⟩ := cgBip_elim _ _ e hcg
      rw [hb, batchOf_scaled d.agentSizes d.T e.2 hT]
      rfl
  · intro avail inputDim k e he
    unfold a2aEdges at he
    cases avail with
    | true =>
      rw [if_pos rfl] at he
      have hknn := (List.mem_filter.mp he).1
      obtain ⟨hbS, _, h1, h2⟩ := a2aKnn_elim d k e hknn
      exact (batchS_eq_elim d h1 h2 hbS).1
    | false =>
      rw [if_neg (by simp)] at he
      have hcg := (List.mem_filter.mp (List.mem_filter.mp he).1).1
      exact (a2aSegs_elim d e hcg).2.1

/-- Witness for C3: concrete edges of all four graphs (both neighbour-search
and fallback paths) on concrete two-scene batches. -/
theorem c3_cross_scene_isolation_witness :
    sceneOfT exD3 0 = sceneOfT exD3 1 ∧
    sceneOfT exD3 0 = sceneOfT exD3 10 ∧
    batchOf exD3.mapSizes 0 = sceneOfT exD3 0 ∧
    batchOf exD4.mapSizes 0 = sceneOfT exD4 0 ∧
    sceneOfS exD3 1 = sceneOfS exD3 0 ∧
    sceneOfS exD4 0 = sceneOfS exD4 1 := by
  refine ⟨?_, ?_, ?_, ?_, ?_, ?_⟩
  · exact (c3_cross_scene_isolation exD3 (by norm_num [exD3])).1 (0, 1) (by decide)
  · exact (c3_cross_scene_isolation exD3 (by norm_num [exD3])).2.1 (0, 10)
      (by decide)
  · exact (c3_cross_scene_isolation exD3 (by norm_num [exD3])).2.2.1 true 2 1
      (0, 0) (by decide)
  · exact (c3_cross_scene_isolation exD4 (by norm_num [exD4, exD3])).2.2.1
      false 2 1 (0, 0)
      (by norm_num [m2aEdges, m2aEdgesFb, cgBip, fbNear, maskT, posTC,
        exD4, exD3])
  · exact (c3_cross_scene_isolation exD3 (by norm_num [exD3])).2.2.2 true 2 1
      (1, 0) (by decide)
  · exact (c3_cross_scene_isolation exD4 (by norm_num [exD4, exD3])).2.2.2
      false 2 1 (0, 1)
      (by norm_num [a2aEdges, a2aSegs, cgMono, fbNear, maskS, posSC,
        exD4, exD3])

/-! ## C10: attention causality of the decoder -/

/-- Insertion only compares the inserted element against list members. -/
theorem insOrd_congr {α : Type} (le1 le2 : α → α → Bool) (x : α) (l : List α)
    (h : ∀ b ∈ l, le1 x b = le2 x b) : insOrd le1 x l = insOrd le2 x l := by
  induction l with
  | nil => rfl
  | cons y ys ih =>
    unfold insOrd
    rw [h y (List.mem_cons_self y ys)]
    by_cases hc : le2 x y = true
    · rw [if_pos hc, if_pos hc]
    · rw [if_neg hc, if_neg hc]
      rw [ih (fun b hb => h b (List.mem_cons_of_mem y hb))]

/-- Sorting depends only on comparisons between list members. -/
theorem sortOrd_congr {α : Type} (le1 le2 : α → α → Bool) (l : List α)
    (h : ∀ i ∈ l, ∀ j ∈ l, le1 i j = le2 i j) : sortOrd le1 l = sortOrd le2 l := by
  induction l with
  | nil => rfl
  | cons x xs ih =>
    show insOrd le1 x (sortOrd le1 xs) = insOrd le2 x (sortOrd le2 xs)
    rw [ih (fun i hi j hj =>
      h i (List.mem_cons_of_mem x hi) j (List.mem_cons_of_mem x hj))]
    apply insOrd_congr
    intro b hb
    exact h x (List.mem_cons_self x xs) b
      (List.mem_cons_of_mem x ((mem_sortOrd le2 b xs).mp hb))

/-- A nearest-neighbour query depends only on the positions of its
candidates and its own query point. -/
theorem knnFrom_congr (cands : List ℕ) (pos1 pos2 : ℕ → ℚ × ℚ)
    (q1 q2 : ℚ × ℚ) (k : ℕ) (hq : q1 = q2)
    (hp : ∀ i ∈ cands, pos1 i = pos2 i) :
    knnFrom cands pos1 q1 k = knnFrom cands pos2 q2 k := by
  subst hq
  unfold knnFrom
  congr 1
  apply sortOrd_congr
  intro i hi j hj
  rw [hp i hi, hp j hj]

/-- Messages into a node are the dst-restricted edge list mapped through
(source value, edge feature). -/
theorem msgsInto_eq_map (l : List (ℕ × ℕ)) (x : ℕ → ℚ) (f : ℕ × ℕ → ℚ)
    (n : ℕ) :
    msgsInto l x f n =
      (l.filter fun e => decide (e.2 = n)).map (fun e => (x e.1, f e)) := by
  unfold msgsInto
  induction l with
  | nil => rfl
  | cons e es ih =>
    rw [List.filterMap_cons, List.filter_cons]
    by_cases hc : e.2 = n
    · rw [if_pos hc, if_pos (decide_eq_true_eq.mpr hc)]
      rw [List.map_cons, ih]
    · rw [if_neg hc, if_neg (by simpa using hc)]
      exact ih

/-- Messages agree whenever the dst-restricted edge lists agree and source
values and edge features agree on those edges. -/
theorem msgsInto_congr (l1 l2 : List (ℕ × ℕ)) (x1 x2 : ℕ → ℚ)
    (f1 f2 : ℕ × ℕ → ℚ) (n : ℕ)
    (hl : l1.filter (fun e => decide (e.2 = n)) =
      l2.filter (fun e => decide (e.2 = n)))
    (hx : ∀ e ∈ l2.filter (fun e => decide (e.2 = n)), x1 e.1 = x2 e.1)
    (hf : ∀ e ∈ l2.filter (fun e => decide (e.2 = n)), f1 e = f2 e) :
    msgsInto l1 x1 f1 n = msgsInto l2 x2 f2 n := by
  rw [msgsInto_eq_map, msgsInto_eq_map, hl]
  exact List.map_congr_left (fun e he => by rw [hx e he, hf e he])

/-- Restricting a union of per-query edge blocks to one destination picks
out that query's block. -/
theorem flatMap_blocks_dstFilter (inner : ℕ → List (ℕ × ℕ)) (N n : ℕ)
    (hdst : ∀ q, ∀ e ∈ inner q, e.2 = q) :
    ((List.range N).flatMap inner).filter (fun e => decide (e.2 = n)) =
      if n < N then inner n else [] := by
  rw [List.filter_flatMap]
  induction N with
  | zero => simp
  | succ N ih =>
    rw [List.range_succ, List.flatMap_append, ih]
    have hsingle : ([N].flatMap fun q =>
        (inner q).filter fun e => decide (e.2 = n)) =
        (inner N).filter fun e => decide (e.2 = n) := by
      simp
    rw [hsingle]
    by_cases hN : n = N
    · subst hN
      rw [if_neg (by omega), if_pos (by omega)]
      rw [List.filter_eq_self.mpr (fun e he => decide_eq_true_eq.mpr (hdst n e he))]
      rfl
    · rw [List.filter_eq_nil_iff.mpr (fun e he => by
        simp only [decide_eq_true_eq]
        rw [hdst N e he]
        exact fun hc => hN hc.symm)]
      by_cases hlt : n < N
      · rw [if_pos hlt, if_pos (by omega)]
        simp
      · rw [if_neg hlt, if_neg (by omega)]
        rfl

section Causality

variable (d : DScene) (pos2 : ℕ → ℕ → ℕ → ℚ) (head2 : ℕ → ℕ → ℚ)
  (vel2 : ℕ → ℕ → ℕ → ℚ) (valid2 : ℕ → ℕ → Bool) (t0 : ℕ)

/-- The override keeps the timestep count. -/
theorem ov_T : (overrideDyn d pos2 head2 vel2 valid2).T = d.T := rfl

/-- The override keeps the agent sizes. -/
theorem ov_agentSizes :
    (overrideDyn d pos2 head2 vel2 valid2).agentSizes = d.agentSizes := rfl

/-- The override keeps the map sizes. -/
theorem ov_mapSizes :
    (overrideDyn d pos2 head2 vel2 valid2).mapSizes = d.mapSizes := rfl

/-- The override replaces the position array. -/
theorem ov_pos : (overrideDyn d pos2 head2 vel2 valid2).pos = pos2 := rfl

/-- The override replaces the heading array. -/
theorem ov_heading : (overrideDyn d pos2 head2 vel2 valid2).heading = head2 := rfl

/-- The override replaces the velocity array. -/
theorem ov_vel : (overrideDyn d pos2 head2 vel2 valid2).vel = vel2 := rfl

/-- The override replaces the validity mask. -/
theorem ov_valid : (overrideDyn d pos2 head2 vel2 valid2).valid = valid2 := rfl

/-- The override keeps the box lengths. -/
theorem ov_alen : (overrideDyn d pos2 head2 vel2 valid2).alen = d.alen := rfl

/-- The override keeps the box widths. -/
theorem ov_awid : (overrideDyn d pos2 head2 vel2 valid2).awid = d.awid := rfl

/-- The override keeps the box heights. -/
theorem ov_ahei : (overrideDyn d pos2 head2 vel2 valid2).ahei = d.ahei := rfl

/-- The override keeps the total agent count. -/
theorem ov_A : (overrideDyn d pos2 head2 vel2 valid2).A = d.A := rfl

/-- The override keeps the total map-point count. -/
theorem ov_M : (overrideDyn d pos2 head2 vel2 valid2).M = d.M := rfl

/-- The override keeps the map positions. -/
theorem ov_mpos : (overrideDyn d pos2 head2 vel2 valid2).mpos = d.mpos := rfl

/-- The override keeps the map orientations. -/
theorem ov_morient :
    (overrideDyn d pos2 head2 vel2 valid2).morient = d.morient := rfl

/-- The override keeps the map types. -/
theorem ov_mtype : (overrideDyn d pos2 head2 vel2 valid2).mtype = d.mtype := rfl

/-- The override keeps the map magnitudes. -/
theorem ov_mmag : (overrideDyn d pos2 head2 vel2 valid2).mmag = d.mmag := rfl

/-- The override keeps the map heights. -/
theorem ov_mhei : (overrideDyn d pos2 head2 vel2 valid2).mhei = d.mhei := rfl

/-- The override keeps the agent types. -/
theorem ov_atype : (overrideDyn d pos2 head2 vel2 valid2).atype = d.atype := rfl

/-- The override keeps the scene classification of time-flattened nodes. -/
theorem ov_sceneOfT :
    sceneOfT (overrideDyn d pos2 head2 vel2 valid2) = sceneOfT d := rfl

/-- The override keeps the (scene, timestep) grouping of time-major nodes. -/
theorem ov_batchS :
    batchS (overrideDyn d pos2 head2 vel2 valid2) = batchS d := rfl

/-- The override keeps the a2a fallback segment sizes. -/
theorem ov_a2aSegs :
    a2aSegs (overrideDyn d pos2 head2 vel2 valid2) = a2aSegs d := rfl

/-- The override keeps the map embeddings. -/
theorem ov_xMapEmb (p : DecParams) :
    xMapEmb p (overrideDyn d pos2 head2 vel2 valid2) = xMapEmb p d := rfl

/-- Validity of a time-flattened node is unchanged below the boundary. -/
theorem maskT_ov (hvalid : ∀ a s, s ≤ t0 → valid2 a s = d.valid a s)
    (n : ℕ) (hn : n % d.T ≤ t0) :
    maskT (overrideDyn d pos2 head2 vel2 valid2) n = maskT d n :=
  hvalid _ _ hn

/-- Position components of a time-flattened node are unchanged below the
boundary. -/
theorem posTC_ov (hpos : ∀ a s, s ≤ t0 → pos2 a s = d.pos a s)
    (n c : ℕ) (hn : n % d.T ≤ t0) :
    posTC (overrideDyn d pos2 head2 vel2 valid2) n c = posTC d n c :=
  congrFun (hpos _ _ hn) c

/-- Planar position of a time-flattened node is unchanged below the
boundary. -/
theorem posT2_ov (hpos : ∀ a s, s ≤ t0 → pos2 a s = d.pos a s)
    (n : ℕ) (hn : n % d.T ≤ t0) :
    posT2 (overrideDyn d pos2 head2 vel2 valid2) n = posT2 d n := by
  unfold posT2
  rw [posTC_ov d pos2 head2 vel2 valid2 t0 hpos n 0 hn,
    posTC_ov d pos2 head2 vel2 valid2 t0 hpos n 1 hn]

/-- Heading of a time-flattened node is unchanged below the boundary. -/
theorem headT_ov (hhead : ∀ a s, s ≤ t0 → head2 a s = d.heading a s)
    (n : ℕ) (hn : n % d.T ≤ t0) :
    headT (overrideDyn d pos2 head2 vel2 valid2) n = headT d n :=
  hhead _ _ hn

/-- Validity of a time-major node is unchanged below the boundary. -/
theorem maskS_ov (hvalid : ∀ a s, s ≤ t0 → valid2 a s = d.valid a s)
    (m : ℕ) (hm : m / d.A ≤ t0) :
    maskS (overrideDyn d pos2 head2 vel2 valid2) m = maskS d m :=
  hvalid _ _ hm

/-- Position components of a time-major node are unchanged below the
boundary. -/
theorem posSC_ov (hpos : ∀ a s, s ≤ t0 → pos2 a s = d.pos a s)
    (m c : ℕ) (hm : m / d.A ≤ t0) :
    posSC (overrideDyn d pos2 head2 vel2 valid2) m c = posSC d m c :=
  congrFun (hpos _ _ hm) c

/-- Planar position of a time-major node is unchanged below the boundary. -/
theorem posS2_ov (hpos : ∀ a s, s ≤ t0 → pos2 a s = d.pos a s)
    (m : ℕ) (hm : m / d.A ≤ t0) :
    posS2 (overrideDyn d pos2 head2 vel2 valid2) m = posS2 d m := by
  unfold posS2
  rw [posSC_ov d pos2 head2 vel2 valid2 t0 hpos m 0 hm,
    posSC_ov d pos2 head2 vel2 valid2 t0 hpos m 1 hm]

/-- Heading of a time-major node is unchanged below the boundary. -/
theorem headS_ov (hhead : ∀ a s, s ≤ t0 → head2 a s = d.heading a s)
    (m : ℕ) (hm : m / d.A ≤ t0) :
    headS (overrideDyn d pos2 head2 vel2 valid2) m = headS d m :=
  hhead _ _ hm

/-- Temporal edge features are unchanged when both endpoints lie below the
boundary. -/
theorem relTimeFeat_ov (p : DecParams)
    (hpos : ∀ a s, s ≤ t0 → pos2 a s = d.pos a s)
    (hhead : ∀ a s, s ≤ t0 → head2 a s = d.heading a s)
    (e : ℕ × ℕ) (h1 : e.1 % d.T ≤ t0) (h2 : e.2 % d.T ≤ t0) :
    relTimeFeat p (overrideDyn d pos2 head2 vel2 valid2) e = relTimeFeat p d e := by
  unfold relTimeFeat headVecT
  rw [posTC_ov d pos2 head2 vel2 valid2 t0 hpos e.1 0 h1,
    posTC_ov d pos2 head2 vel2 valid2 t0 hpos e.1 1 h1,
    posTC_ov d pos2 head2 vel2 valid2 t0 hpos e.1 2 h1,
    posTC_ov d pos2 head2 vel2 valid2 t0 hpos e.2 0 h2,
    posTC_ov d pos2 head2 vel2 valid2 t0 hpos e.2 1 h2,
    posTC_ov d pos2 head2 vel2 valid2 t0 hpos e.2 2 h2,
    headT_ov d pos2 head2 vel2 valid2 t0 hhead e.1 h1,
    headT_ov d pos2 head2 vel2 valid2 t0 hhead e.2 h2]

/-- Map-to-agent edge features are unchanged when the agent destination lies
below the boundary. -/
theorem relM2AFeat_ov (p : DecParams)
    (hpos : ∀ a s, s ≤ t0 → pos2 a s = d.pos a s)
    (hhead : ∀ a s, s ≤ t0 → head2 a s = d.heading a s)
    (e : ℕ × ℕ) (h2 : e.2 % d.T ≤ t0) :
    relM2AFeat p (overrideDyn d pos2 head2 vel2 valid2) e = relM2AFeat p d e := by
  unfold relM2AFeat headVecT
  rw [posTC_ov d pos2 head2 vel2 valid2 t0 hpos e.2 0 h2,
    posTC_ov d pos2 head2 vel2 valid2 t0 hpos e.2 1 h2,
    posTC_ov d pos2 head2 vel2 valid2 t0 hpos e.2 2 h2,
    headT_ov d pos2 head2 vel2 valid2 t0 hhead e.2 h2]
  rfl

/-- Agent-to-agent edge features are unchanged when both endpoints lie below
the boundary. -/
theorem relA2AFeat_ov (p : DecParams)
    (hpos : ∀ a s, s ≤ t0 → pos2 a s = d.pos a s)
    (hhead : ∀ a s, s ≤ t0 → head2 a s = d.heading a s)
    (e : ℕ × ℕ) (h1 : e.1 / d.A ≤ t0) (h2 : e.2 / d.A ≤ t0) :
    relA2AFeat p (overrideDyn d pos2 head2 vel2 valid2) e = relA2AFeat p d e := by
  unfold relA2AFeat headVecS
  rw [posSC_ov d pos2 head2 vel2 valid2 t0 hpos e.1 0 h1,
    posSC_ov d pos2 head2 vel2 valid2 t0 hpos e.1 1 h1,
    posSC_ov d pos2 head2 vel2 valid2 t0 hpos e.1 2 h1,
    posSC_ov d pos2 head2 vel2 valid2 t0 hpos e.2 0 h2,
    posSC_ov d pos2 head2 vel2 valid2 t0 hpos e.2 1 h2,
    posSC_ov d pos2 head2 vel2 valid2 t0 hpos e.2 2 h2,
    headS_ov d pos2 head2 vel2 valid2 t0 hhead e.1 h1,
    headS_ov d pos2 head2 vel2 valid2 t0 hhead e.2 h2]

/-- Per-node continuous agent features are unchanged below the boundary. -/
theorem xAfeat_ov (p : DecParams)
    (hhead : ∀ a s, s ≤ t0 → head2 a s = d.heading a s)
    (hvel : ∀ a s, s ≤ t0 → vel2 a s = d.vel a s)
    (n : ℕ) (hn : n % d.T ≤ t0) :
    xAfeat p (overrideDyn d pos2 head2 vel2 valid2) n = xAfeat p d n := by
  unfold xAfeat headVecT headT
  simp only [ov_T, ov_heading, ov_vel, ov_alen, ov_awid, ov_ahei,
    hvel _ _ hn, hhead _ _ hn]

/-- A node built from an in-range agent and timestep is in range. -/
theorem tnode_lt (a i A T : ℕ) (ha : a < A) (hi : i < T) :
    a * T + i < A * T := by
  calc a * T + i < a * T + T := by omega
    _ = (a + 1) * T := by ring
    _ ≤ A * T := Nat.mul_le_mul_right T (by omega)

/-- The temporal pair list restricted to one destination below the boundary
is unchanged by the override. -/
theorem tPairs_dstFilter_ov
    (hvalid : ∀ a s, s ≤ t0 → valid2 a s = d.valid a s) (n : ℕ)
    (hn : n % d.T ≤ t0) :
    (tPairs (overrideDyn d pos2 head2 vel2 valid2)).filter
        (fun e => decide (e.2 = n)) =
      (tPairs d).filter (fun e => decide (e.2 = n)) := by
  unfold tPairs
  rw [ov_A, ov_T, ov_valid]
  rw [List.filter_flatMap, List.filter_flatMap]
  apply List.flatMap_congr
  intro a _
  rw [List.filter_flatMap, List.filter_flatMap]
  apply List.flatMap_congr
  intro i _
  rw [List.filter_filterMap, List.filter_filterMap]
  apply List.filterMap_congr
  intro j hj
  by_cases hjn : a * d.T + j = n
  · have hj' : j < d.T := List.mem_range.mp hj
    have hjt : j ≤ t0 := by
      rw [← tnode_mod a j d.T hj', hjn]
      exact hn
    by_cases hij : i < j
    · have hit : i ≤ t0 := by omega
      rw [hvalid a i hit, hvalid a j hjt]
    · have hfalse : decide (i < j) = false := by simpa using hij
      simp [hfalse]
  · split_ifs <;> simp [Option.filter, hjn]

/-- A gap-filtered temporal graph restricted to one destination below the
boundary is unchanged by the override. -/
theorem tGraph_dstFilter_ov (gapP : ℕ × ℕ → Bool)
    (hvalid : ∀ a s, s ≤ t0 → valid2 a s = d.valid a s) (n : ℕ)
    (hn : n % d.T ≤ t0) :
    ((tPairs (overrideDyn d pos2 head2 vel2 valid2)).filter gapP).filter
        (fun e => decide (e.2 = n)) =
      ((tPairs d).filter gapP).filter (fun e => decide (e.2 = n)) := by
  simp only [List.filter_comm (fun e => decide (e.2 = n)) gapP]
  rw [tPairs_dstFilter_ov d pos2 head2 vel2 valid2 t0 hvalid n hn]

/-- Members of a dst-restricted gap-filtered temporal graph: the source is
in range, strictly earlier, and below the boundary. -/
theorem tGraph_dstFilter_mem (gapP : ℕ × ℕ → Bool) (n : ℕ)
    (hn : n % d.T ≤ t0) {e : ℕ × ℕ}
    (he : e ∈ ((tPairs d).filter gapP).filter (fun e => decide (e.2 = n))) :
    e.2 = n ∧ e.1 < d.A * d.T ∧ e.1 % d.T ≤ t0 ∧ e.1 % d.T < e.2 % d.T := by
  rw [List.mem_filter] at he
  obtain ⟨he, hdst⟩ := he
  rw [List.mem_filter] at he
  obtain ⟨he, _⟩ := he
  obtain ⟨a, i, j, ha, hi, hj, hij, _, _, heq⟩ := tPairs_mem_elim he
  have hdst' : e.2 = n := decide_eq_true_eq.mp hdst
  have h1 : e.1 = a * d.T + i := by rw [heq]
  have h2 : e.2 = a * d.T + j := by rw [heq]
  have hmod1 : e.1 % d.T = i := by rw [h1, tnode_mod a i d.T hi]
  have hmod2 : e.2 % d.T = j := by rw [h2, tnode_mod a j d.T hj]
  refine ⟨hdst', ?_, ?_, ?_⟩
  · rw [h1]
    exact tnode_lt a i d.A d.T ha hi
  · have : e.2 % d.T ≤ t0 := by rw [hdst']; exact hn
    omega
  · omega

/-- The override keeps the planar map positions. -/
theorem ov_posM2 : posM2 (overrideDyn d pos2 head2 vel2 valid2) = posM2 d := rfl

end Causality

/-- Restricting the raw nearest-neighbour map-to-agent edges to one
destination picks out that query's block. -/
theorem m2aKnn_dstFilter (x : DScene) (k n : ℕ) :
    (m2aKnn x k).filter (fun e => decide (e.2 = n)) =
      if n < x.A * x.T then
        (knnFrom ((List.range x.M).filter fun m =>
            decide (batchOf x.mapSizes m = sceneOfT x n))
          (posM2 x) (posT2 x n) k).map (fun m => (m, n))
      else [] := by
  unfold m2aKnn
  apply flatMap_blocks_dstFilter
  intro q e he
  rw [List.mem_map] at he
  obtain ⟨m, _, hem⟩ := he
  rw [← hem]

/-- Restricting the raw nearest-neighbour agent-to-agent edges to one
destination picks out that query's block. -/
theorem a2aKnn_dstFilter (x : DScene) (k n : ℕ) :
    (a2aKnn x k).filter (fun e => decide (e.2 = n)) =
      if n < x.A * x.T then
        (knnFrom ((List.range (x.A * x.T)).filter fun c =>
            decide (c ≠ n) && decide (batchS x c = batchS x n))
          (posS2 x) (posS2 x n) k).map (fun c => (c, n))
      else [] := by
  unfold a2aKnn
  apply flatMap_blocks_dstFilter
  intro q e he
  rw [List.mem_map] at he
  obtain ⟨c, _, hec⟩ := he
  rw [← hec]

section Causality2

variable (d : DScene) (pos2 : ℕ → ℕ → ℕ → ℚ) (head2 : ℕ → ℕ → ℚ)
  (vel2 : ℕ → ℕ → ℕ → ℚ) (valid2 : ℕ → ℕ → Bool) (t0 : ℕ)

/-- The map-to-agent graph restricted to one destination below the boundary
is unchanged by the override (both construction paths). -/
theorem m2a_dstFilter_ov (avail : Bool) (inputDim k : ℕ)
    (hpos : ∀ a s, s ≤ t0 → pos2 a s = d.pos a s)
    (hvalid : ∀ a s, s ≤ t0 → valid2 a s = d.valid a s)
    (n : ℕ) (hn : n % d.T ≤ t0) :
    (m2aEdges avail inputDim k (overrideDyn d pos2 head2 vel2 valid2)).filter
        (fun e => decide (e.2 = n)) =
      (m2aEdges avail inputDim k d).filter (fun e => decide (e.2 = n)) := by
  cases avail with
  | true =>
    show ((m2aKnn (overrideDyn d pos2 head2 vel2 valid2) k).filter
        (fun e => maskT (overrideDyn d pos2 head2 vel2 valid2) e.2)).filter
          (fun e => decide (e.2 = n)) =
      ((m2aKnn d k).filter (fun e => maskT d e.2)).filter
        (fun e => decide (e.2 = n))
    conv_lhs => rw [List.filter_comm]
    conv_rhs => rw [List.filter_comm]
    have hknn : (m2aKnn (overrideDyn d pos2 head2 vel2 valid2) k).filter
        (fun e => decide (e.2 = n)) =
        (m2aKnn d k).filter (fun e => decide (e.2 = n)) := by
      rw [m2aKnn_dstFilter, m2aKnn_dstFilter d k n, ov_A, ov_T, ov_M,
        ov_mapSizes, ov_sceneOfT, ov_posM2,
        posT2_ov d pos2 head2 vel2 valid2 t0 hpos n hn]
    rw [hknn]
    apply List.filter_congr
    intro e he
    rw [List.mem_filter] at he
    have hdst : e.2 = n := decide_eq_true_eq.mp he.2
    rw [hdst]
    exact maskT_ov d pos2 head2 vel2 valid2 t0 hvalid n hn
  | false =>
    show ((m2aEdgesFb (overrideDyn d pos2 head2 vel2 valid2) inputDim)).filter
        (fun e => decide (e.2 = n)) =
      (m2aEdgesFb d inputDim).filter (fun e => decide (e.2 = n))
    unfold m2aEdgesFb
    rw [ov_mapSizes, ov_agentSizes, ov_T]
    rw [List.filter_filter, List.filter_filter, List.filter_filter,
      List.filter_filter]
    apply List.filter_congr
    intro e _
    by_cases hdst : e.2 = n
    · have hn2 : e.2 % d.T ≤ t0 := by rw [hdst]; exact hn
      have hfun : (fun c => posTC (overrideDyn d pos2 head2 vel2 valid2) e.2 c) =
          fun c => posTC d e.2 c :=
        funext fun c => posTC_ov d pos2 head2 vel2 valid2 t0 hpos e.2 c hn2
      rw [ov_mpos, hfun, maskT_ov d pos2 head2 vel2 valid2 t0 hvalid e.2 hn2]
    · simp [hdst]

/-- The agent-to-agent graph restricted to one destination below the
boundary is unchanged by the override (both construction paths). -/
theorem a2a_dstFilter_ov (avail : Bool) (inputDim k : ℕ)
    (hpos : ∀ a s, s ≤ t0 → pos2 a s = d.pos a s)
    (hvalid : ∀ a s, s ≤ t0 → valid2 a s = d.valid a s)
    (n : ℕ) (hn : n / d.A ≤ t0) :
    (a2aEdges avail inputDim k (overrideDyn d pos2 head2 vel2 valid2)).filter
        (fun e => decide (e.2 = n)) =
      (a2aEdges avail inputDim k d).filter (fun e => decide (e.2 = n)) := by
  cases avail with
  | true =>
    show ((a2aKnn (overrideDyn d pos2 head2 vel2 valid2) k).filter
        (fun e => maskS (overrideDyn d pos2 head2 vel2 valid2) e.1 &&
          maskS (overrideDyn d pos2 head2 vel2 valid2) e.2)).filter
          (fun e => decide (e.2 = n)) =
      ((a2aKnn d k).filter (fun e => maskS d e.1 && maskS d e.2)).filter
        (fun e => decide (e.2 = n))
    conv_lhs => rw [List.filter_comm]
    conv_rhs => rw [List.filter_comm]
    have hknn : (a2aKnn (overrideDyn d pos2 head2 vel2 valid2) k).filter
        (fun e => decide (e.2 = n)) =
        (a2aKnn d k).filter (fun e => decide (e.2 = n)) := by
      rw [a2aKnn_dstFilter, a2aKnn_dstFilter d k n, ov_A, ov_T, ov_batchS]
      by_cases hN : n < d.A * d.T
      · rw [if_pos hN, if_pos hN]
        congr 1
        apply knnFrom_congr
        · exact posS2_ov d pos2 head2 vel2 valid2 t0 hpos n hn
        · intro i hi
          rw [List.mem_filter, Bool.and_eq_true] at hi
          have hib : batchS d i = batchS d n := decide_eq_true_eq.mp hi.2.2
          have hiN : i < d.A * d.T := List.mem_range.mp hi.1
          have hidiv : i / d.A = n / d.A := (batchS_eq_elim d hiN hN hib).2
          exact posS2_ov d pos2 head2 vel2 valid2 t0 hpos i (by omega)
      · rw [if_neg hN, if_neg hN]
    rw [hknn]
    apply List.filter_congr
    intro e he
    rw [List.mem_filter] at he
    have hdst : e.2 = n := decide_eq_true_eq.mp he.2
    obtain ⟨hbS, _, h1, h2⟩ := a2aKnn_elim d k e he.1
    have hdiv : e.1 / d.A = e.2 / d.A := (batchS_eq_elim d h1 h2 hbS).2
    have ht2 : e.2 / d.A ≤ t0 := by rw [hdst]; exact hn
    rw [maskS_ov d pos2 head2 vel2 valid2 t0 hvalid e.1 (by omega),
      maskS_ov d pos2 head2 vel2 valid2 t0 hvalid e.2 ht2]
  | false =>
    show (((cgMono (a2aSegs (overrideDyn d pos2 head2 vel2 valid2))).filter
        (fun e => maskS (overrideDyn d pos2 head2 vel2 valid2) e.1 &&
          maskS (overrideDyn d pos2 head2 vel2 valid2) e.2)).filter
          (fun e => decide (fbNear inputDim
            (fun c => posSC (overrideDyn d pos2 head2 vel2 valid2) e.1 c)
            (fun c => posSC (overrideDyn d pos2 head2 vel2 valid2) e.2 c)))).filter
          (fun e => decide (e.2 = n)) =
      (((cgMono (a2aSegs d)).filter (fun e => maskS d e.1 && maskS d e.2)).filter
        (fun e => decide (fbNear inputDim (fun c => posSC d e.1 c)
          (fun c => posSC d e.2 c)))).filter (fun e => decide (e.2 = n))
    rw [ov_a2aSegs]
    rw [List.filter_filter, List.filter_filter, List.filter_filter,
      List.filter_filter]
    apply List.filter_congr
    intro e he
    by_cases hdst : e.2 = n
    · obtain ⟨hdiv, _, _, hb1, hb2⟩ := a2aSegs_elim d e he
      have ht2 : e.2 / d.A ≤ t0 := by rw [hdst]; exact hn
      have ht1 : e.1 / d.A ≤ t0 := by omega
      have hf1 : (fun c => posSC (overrideDyn d pos2 head2 vel2 valid2) e.1 c) =
          fun c => posSC d e.1 c :=
        funext fun c => posSC_ov d pos2 head2 vel2 valid2 t0 hpos e.1 c ht1
      have hf2 : (fun c => posSC (overrideDyn d pos2 head2 vel2 valid2) e.2 c) =
          fun c => posSC d e.2 c :=
        funext fun c => posSC_ov d pos2 head2 vel2 valid2 t0 hpos e.2 c ht2
      rw [hf1, hf2, maskS_ov d pos2 head2 vel2 valid2 t0 hvalid e.1 ht1,
        maskS_ov d pos2 head2 vel2 valid2 t0 hvalid e.2 ht2]
    · simp [hdst]

end Causality2

/-- Every agent-to-agent edge (either path) joins nodes of one timestep,
inside the node universe. -/
theorem a2aEdges_elim (d : DScene) (avail : Bool) (inputDim k : ℕ)
    (e : ℕ × ℕ) (he : e ∈ a2aEdges avail inputDim k d) :
    e.1 / d.A = e.2 / d.A ∧ e.1 < d.A * d.T ∧ e.2 < d.A * d.T := by
  cases avail with
  | true =>
    rw [show a2aEdges true inputDim k d =
      (a2aKnn d k).filter (fun e => maskS d e.1 && maskS d e.2) from rfl] at he
    obtain ⟨hbS, _, h1, h2⟩ := a2aKnn_elim d k e (List.mem_filter.mp he).1
    exact ⟨(batchS_eq_elim d h1 h2 hbS).2, h1, h2⟩
  | false =>
    rw [show a2aEdges false inputDim k d =
      ((cgMono (a2aSegs d)).filter (fun e => maskS d e.1 && maskS d e.2)).filter
        (fun e => decide (fbNear inputDim (fun c => posSC d e.1 c)
          (fun c => posSC d e.2 c))) from rfl] at he
    have hcg := (List.mem_filter.mp (List.mem_filter.mp he).1).1
    obtain ⟨hdiv, _, _, h1, h2⟩ := a2aSegs_elim d e hcg
    exact ⟨hdiv, h1, h2⟩

section Causality3

variable (d : DScene) (pos2 : ℕ → ℕ → ℕ → ℚ) (head2 : ℕ → ℕ → ℚ)
  (vel2 : ℕ → ℕ → ℕ → ℚ) (valid2 : ℕ → ℕ → Bool) (t0 : ℕ) (p : DecParams)

/-- One temporal self-attention pass (patch or full-graph) preserves
agreement below the boundary. -/
theorem tAttn_inv (gapP : ℕ × ℕ → Bool) (emb : List ℚ → ℚ)
    (upd : ℚ → List (ℚ × ℚ) → ℚ)
    (hpos : ∀ a s, s ≤ t0 → pos2 a s = d.pos a s)
    (hhead : ∀ a s, s ≤ t0 → head2 a s = d.heading a s)
    (hvalid : ∀ a s, s ≤ t0 → valid2 a s = d.valid a s)
    (x1 x2 : ℕ → ℚ)
    (hx : ∀ m, m < d.A * d.T → m % d.T ≤ t0 → x1 m = x2 m)
    (n : ℕ) (hN : n < d.A * d.T) (hn : n % d.T ≤ t0) :
    attnApply upd ((tPairs (overrideDyn d pos2 head2 vel2 valid2)).filter gapP)
      (fun e => emb (relTimeFeat p (overrideDyn d pos2 head2 vel2 valid2) e))
      (maskT (overrideDyn d pos2 head2 vel2 valid2)) x1 x1 n =
    attnApply upd ((tPairs d).filter gapP)
      (fun e => emb (relTimeFeat p d e)) (maskT d) x2 x2 n := by
  unfold attnApply
  rw [maskT_ov d pos2 head2 vel2 valid2 t0 hvalid n hn]
  have hmsgs : msgsInto ((tPairs (overrideDyn d pos2 head2 vel2 valid2)).filter gapP)
      x1 (fun e => emb (relTimeFeat p (overrideDyn d pos2 head2 vel2 valid2) e)) n =
      msgsInto ((tPairs d).filter gapP) x2 (fun e => emb (relTimeFeat p d e)) n := by
    apply msgsInto_congr
    · exact tGraph_dstFilter_ov d pos2 head2 vel2 valid2 t0 gapP hvalid n hn
    · intro e he
      obtain ⟨_, hlt, hmod, _⟩ :=
        tGraph_dstFilter_mem d t0 gapP n hn he
      exact hx e.1 hlt hmod
    · intro e he
      obtain ⟨hdst, _, hmod, _⟩ :=
        tGraph_dstFilter_mem d t0 gapP n hn he
      have h2 : e.2 % d.T ≤ t0 := by rw [hdst]; exact hn
      rw [relTimeFeat_ov d pos2 head2 vel2 valid2 t0 p hpos hhead e hmod h2]
  by_cases hm : maskT d n = true
  · rw [if_pos hm, if_pos hm, hx n hN hn, hmsgs]
  · rw [if_neg hm, if_neg hm]
    exact hx n hN hn

/-- One map-to-agent cross-attention pass preserves agreement below the
boundary. -/
theorem m2aAttn_inv (upd : ℚ → List (ℚ × ℚ) → ℚ)
    (hpos : ∀ a s, s ≤ t0 → pos2 a s = d.pos a s)
    (hhead : ∀ a s, s ≤ t0 → head2 a s = d.heading a s)
    (hvalid : ∀ a s, s ≤ t0 → valid2 a s = d.valid a s)
    (x1 x2 : ℕ → ℚ)
    (hx : ∀ m, m < d.A * d.T → m % d.T ≤ t0 → x1 m = x2 m)
    (n : ℕ) (hN : n < d.A * d.T) (hn : n % d.T ≤ t0) :
    attnApply upd (m2aEdges p.clusterAvail p.inputDim p.kM2A
        (overrideDyn d pos2 head2 vel2 valid2))
      (fun e => p.rEmbM2A (relM2AFeat p (overrideDyn d pos2 head2 vel2 valid2) e))
      (maskT (overrideDyn d pos2 head2 vel2 valid2))
      (xMapEmb p (overrideDyn d pos2 head2 vel2 valid2)) x1 n =
    attnApply upd (m2aEdges p.clusterAvail p.inputDim p.kM2A d)
      (fun e => p.rEmbM2A (relM2AFeat p d e)) (maskT d) (xMapEmb p d) x2 n := by
  unfold attnApply
  rw [maskT_ov d pos2 head2 vel2 valid2 t0 hvalid n hn]
  have hmsgs : msgsInto (m2aEdges p.clusterAvail p.inputDim p.kM2A
      (overrideDyn d pos2 head2 vel2 valid2))
      (xMapEmb p (overrideDyn d pos2 head2 vel2 valid2))
      (fun e => p.rEmbM2A (relM2AFeat p (overrideDyn d pos2 head2 vel2 valid2) e)) n =
      msgsInto (m2aEdges p.clusterAvail p.inputDim p.kM2A d) (xMapEmb p d)
        (fun e => p.rEmbM2A (relM2AFeat p d e)) n := by
    apply msgsInto_congr
    · exact m2a_dstFilter_ov d pos2 head2 vel2 valid2 t0 p.clusterAvail
        p.inputDim p.kM2A hpos hvalid n hn
    · intro e _
      rw [ov_xMapEmb]
    · intro e he
      rw [List.mem_filter] at he
      have hdst : e.2 = n := decide_eq_true_eq.mp he.2
      have h2 : e.2 % d.T ≤ t0 := by rw [hdst]; exact hn
      rw [relM2AFeat_ov d pos2 head2 vel2 valid2 t0 p hpos hhead e h2]
  by_cases hm : maskT d n = true
  · rw [if_pos hm, if_pos hm, hx n hN hn, hmsgs]
  · rw [if_neg hm, if_neg hm]
    exact hx n hN hn

/-- The agent-to-agent cross-attention step (with its time-major reshaping)
preserves agreement below the boundary. -/
theorem a2aStep_inv (upd : ℚ → List (ℚ × ℚ) → ℚ)
    (hpos : ∀ a s, s ≤ t0 → pos2 a s = d.pos a s)
    (hhead : ∀ a s, s ≤ t0 → head2 a s = d.heading a s)
    (hvalid : ∀ a s, s ≤ t0 → valid2 a s = d.valid a s)
    (x1 x2 : ℕ → ℚ)
    (hx : ∀ m, m < d.A * d.T → m % d.T ≤ t0 → x1 m = x2 m)
    (n : ℕ) (hN : n < d.A * d.T) (hn : n % d.T ≤ t0) :
    toTview d.A d.T (attnApply upd
      (a2aEdges p.clusterAvail p.inputDim p.kA2A
        (overrideDyn d pos2 head2 vel2 valid2))
      (fun e => p.rEmbA2A (relA2AFeat p (overrideDyn d pos2 head2 vel2 valid2) e))
      (maskS (overrideDyn d pos2 head2 vel2 valid2))
      (toSview d.A d.T x1) (toSview d.A d.T x1)) n =
    toTview d.A d.T (attnApply upd (a2aEdges p.clusterAvail p.inputDim p.kA2A d)
      (fun e => p.rEmbA2A (relA2AFeat p d e)) (maskS d)
      (toSview d.A d.T x2) (toSview d.A d.T x2)) n := by
  have hTpos : 0 < d.T := by
    rcases Nat.eq_zero_or_pos d.T with h0 | h0
    · rw [h0] at hN; omega
    · exact h0
  have hApos : 0 < d.A := by
    rcases Nat.eq_zero_or_pos d.A with h0 | h0
    · rw [h0] at hN; omega
    · exact h0
  have hndiv : n / d.T < d.A := by
    rw [Nat.div_lt_iff_lt_mul hTpos]
    calc n < d.A * d.T := hN
      _ = d.A * d.T := rfl
  unfold toTview
  have hmN : (n % d.T) * d.A + n / d.T < d.A * d.T := by
    have h1 := tnode_lt (n % d.T) (n / d.T) d.T d.A (Nat.mod_lt n hTpos) hndiv
    calc (n % d.T) * d.A + n / d.T < d.T * d.A := h1
      _ = d.A * d.T := Nat.mul_comm d.T d.A
  have hmdiv : ((n % d.T) * d.A + n / d.T) / d.A = n % d.T :=
    tnode_div (n % d.T) (n / d.T) d.A hndiv
  have hmmod : ((n % d.T) * d.A + n / d.T) % d.A = n / d.T :=
    tnode_mod (n % d.T) (n / d.T) d.A hndiv
  have hmt : ((n % d.T) * d.A + n / d.T) / d.A ≤ t0 := by rw [hmdiv]; exact hn
  have hown : ∀ y1 y2 : ℕ → ℚ,
      (∀ m, m < d.A * d.T → m % d.T ≤ t0 → y1 m = y2 m) →
      toSview d.A d.T y1 ((n % d.T) * d.A + n / d.T) =
        toSview d.A d.T y2 ((n % d.T) * d.A + n / d.T) := by
    intro y1 y2 hy
    unfold toSview
    rw [hmmod, hmdiv]
    have hidx : n / d.T * d.T + n % d.T = n := by
      rw [Nat.mul_comm]
      exact Nat.div_add_mod n d.T
    rw [hidx]
    exact hy n hN hn
  have hsrc : ∀ e, e ∈ (a2aEdges p.clusterAvail p.inputDim p.kA2A d).filter
      (fun e => decide (e.2 = (n % d.T) * d.A + n / d.T)) →
      toSview d.A d.T x1 e.1 = toSview d.A d.T x2 e.1 := by
    intro e he
    rw [List.mem_filter] at he
    have hdst : e.2 = (n % d.T) * d.A + n / d.T := decide_eq_true_eq.mp he.2
    obtain ⟨hdiv, h1, _⟩ := a2aEdges_elim d p.clusterAvail p.inputDim p.kA2A e he.1
    have ht1 : e.1 / d.A ≤ t0 := by
      rw [hdiv, hdst, hmdiv]
      exact hn
    have he1div : e.1 / d.A < d.T := by
      rw [Nat.div_lt_iff_lt_mul hApos]
      calc e.1 < d.A * d.T := h1
        _ = d.T * d.A := Nat.mul_comm d.A d.T
    unfold toSview
    have hb : (e.1 % d.A) * d.T + e.1 / d.A < d.A * d.T := by
      have := tnode_lt (e.1 % d.A) (e.1 / d.A) d.A d.T (Nat.mod_lt e.1 hApos)
        he1div
      exact this
    have hmo : ((e.1 % d.A) * d.T + e.1 / d.A) % d.T = e.1 / d.A :=
      tnode_mod (e.1 % d.A) (e.1 / d.A) d.T he1div
    apply hx
    · exact hb
    · rw [hmo]
      exact ht1
  have hfeat : ∀ e, e ∈ (a2aEdges p.clusterAvail p.inputDim p.kA2A d).filter
      (fun e => decide (e.2 = (n % d.T) * d.A + n / d.T)) →
      p.rEmbA2A (relA2AFeat p (overrideDyn d pos2 head2 vel2 valid2) e) =
        p.rEmbA2A (relA2AFeat p d e) := by
    intro e he
    rw [List.mem_filter] at he
    have hdst : e.2 = (n % d.T) * d.A + n / d.T := decide_eq_true_eq.mp he.2
    obtain ⟨hdiv, _, _⟩ := a2aEdges_elim d p.clusterAvail p.inputDim p.kA2A e he.1
    have ht2 : e.2 / d.A ≤ t0 := by rw [hdst, hmdiv]; exact hn
    have ht1 : e.1 / d.A ≤ t0 := by rw [hdiv]; exact ht2
    rw [relA2AFeat_ov d pos2 head2 vel2 valid2 t0 p hpos hhead e ht1 ht2]
  unfold attnApply
  rw [maskS_ov d pos2 head2 vel2 valid2 t0 hvalid _ hmt]
  have hmsgs : msgsInto (a2aEdges p.clusterAvail p.inputDim p.kA2A
      (overrideDyn d pos2 head2 vel2 valid2)) (toSview d.A d.T x1)
      (fun e => p.rEmbA2A (relA2AFeat p (overrideDyn d pos2 head2 vel2 valid2) e))
      ((n % d.T) * d.A + n / d.T) =
      msgsInto (a2aEdges p.clusterAvail p.inputDim p.kA2A d) (toSview d.A d.T x2)
        (fun e => p.rEmbA2A (relA2AFeat p d e)) ((n % d.T) * d.A + n / d.T) := by
    apply msgsInto_congr
    · exact a2a_dstFilter_ov d pos2 head2 vel2 valid2 t0 p.clusterAvail
        p.inputDim p.kA2A hpos hvalid _ hmt
    · exact hsrc
    · exact hfeat
  by_cases hm : maskS d ((n % d.T) * d.A + n / d.T) = true
  · rw [if_pos hm, if_pos hm, hown x1 x2 hx, hmsgs]
  · rw [if_neg hm, if_neg hm]
    exact hown x1 x2 hx

/-- One full decoder layer preserves agreement below the boundary. -/
theorem layerStep_inv
    (hpos : ∀ a s, s ≤ t0 → pos2 a s = d.pos a s)
    (hhead : ∀ a s, s ≤ t0 → head2 a s = d.heading a s)
    (hvalid : ∀ a s, s ≤ t0 → valid2 a s = d.valid a s)
    (i : ℕ) (x1 x2 : ℕ → ℚ)
    (hx : ∀ m, m < d.A * d.T → m % d.T ≤ t0 → x1 m = x2 m) :
    ∀ n, n < d.A * d.T → n % d.T ≤ t0 →
      layerStep p (overrideDyn d pos2 head2 vel2 valid2) i x1 n =
        layerStep p d i x2 n := by
  intro n hN hn
  unfold layerStep fullEdges
  apply a2aStep_inv d pos2 head2 vel2 valid2 t0 p (p.updA2A i) hpos hhead hvalid
    _ _ ?_ n hN hn
  intro m hm ht
  apply m2aAttn_inv d pos2 head2 vel2 valid2 t0 p (p.updM2A i) hpos hhead hvalid
    _ _ ?_ m hm ht
  intro m2 hm2 ht2
  exact tAttn_inv d pos2 head2 vel2 valid2 t0 p
    (fun e => decide ((e.2 - e.1) % 10 = 0)) p.rEmbT (p.updT i)
    hpos hhead hvalid x1 x2 hx m2 hm2 ht2

/-- The decoder output at nodes below the boundary is unchanged by the
override. -/
theorem decoderOut_inv
    (hpos : ∀ a s, s ≤ t0 → pos2 a s = d.pos a s)
    (hhead : ∀ a s, s ≤ t0 → head2 a s = d.heading a s)
    (hvel : ∀ a s, s ≤ t0 → vel2 a s = d.vel a s)
    (hvalid : ∀ a s, s ≤ t0 → valid2 a s = d.valid a s) :
    ∀ n, n < d.A * d.T → n % d.T ≤ t0 →
      decoderOut p (overrideDyn d pos2 head2 vel2 valid2) n = decoderOut p d n := by
  have hx0 : ∀ m, m % d.T ≤ t0 →
      (if maskT (overrideDyn d pos2 head2 vel2 valid2) m then
        p.embA (xAfeat p (overrideDyn d pos2 head2 vel2 valid2) m)
          ((overrideDyn d pos2 head2 vel2 valid2).atype
            (m / (overrideDyn d pos2 head2 vel2 valid2).T))
      else 0) =
      (if maskT d m then p.embA (xAfeat p d m) (d.atype (m / d.T)) else 0) := by
    intro m ht
    rw [ov_atype, ov_T, maskT_ov d pos2 head2 vel2 valid2 t0 hvalid m ht,
      xAfeat_ov d pos2 head2 vel2 valid2 t0 p hhead hvel m ht]
  have hx1 : ∀ m, m < d.A * d.T → m % d.T ≤ t0 →
      attnApply p.updPatch (patchEdges (overrideDyn d pos2 head2 vel2 valid2))
        (fun e => p.rEmbPatch
          (relTimeFeat p (overrideDyn d pos2 head2 vel2 valid2) e))
        (maskT (overrideDyn d pos2 head2 vel2 valid2))
        (fun n => if maskT (overrideDyn d pos2 head2 vel2 valid2) n then
          p.embA (xAfeat p (overrideDyn d pos2 head2 vel2 valid2) n)
            ((overrideDyn d pos2 head2 vel2 valid2).atype
              (n / (overrideDyn d pos2 head2 vel2 valid2).T))
        else 0)
        (fun n => if maskT (overrideDyn d pos2 head2 vel2 valid2) n then
          p.embA (xAfeat p (overrideDyn d pos2 head2 vel2 valid2) n)
            ((overrideDyn d pos2 head2 vel2 valid2).atype
              (n / (overrideDyn d pos2 head2 vel2 valid2).T))
        else 0) m =
      attnApply p.updPatch (patchEdges d)
        (fun e => p.rEmbPatch (relTimeFeat p d e)) (maskT d)
        (fun n => if maskT d n then
          p.embA (xAfeat p d n) (d.atype (n / d.T)) else 0)
        (fun n => if maskT d n then
          p.embA (xAfeat p d n) (d.atype (n / d.T)) else 0) m := by
    intro m hm ht
    unfold patchEdges
    exact tAttn_inv d pos2 head2 vel2 valid2 t0 p
      (fun e => decide (e.2 - e.1 < 10)) p.rEmbPatch p.updPatch
      hpos hhead hvalid _ _ (fun m2 _ ht2 => hx0 m2 ht2) m hm ht
  have hfold : ∀ (l : List ℕ) (y1 y2 : ℕ → ℚ),
      (∀ m, m < d.A * d.T → m % d.T ≤ t0 → y1 m = y2 m) →
      ∀ n, n < d.A * d.T → n % d.T ≤ t0 →
        (l.foldl (fun x i =>
          layerStep p (overrideDyn d pos2 head2 vel2 valid2) i x) y1) n =
          (l.foldl (fun x i => layerStep p d i x) y2) n := by
    intro l
    induction l with
    | nil => intro y1 y2 hy n hN hn; exact hy n hN hn
    | cons i l' ih =>
      intro y1 y2 hy n hN hn
      simp only [List.foldl_cons]
      exact ih _ _ (layerStep_inv d pos2 head2 vel2 valid2 t0 p hpos hhead
        hvalid i y1 y2 hy) n hN hn
  intro n hN hn
  exact hfold (List.range p.numLayers) _ _ hx1 n hN hn

end Causality3

/-- C10: every patch- and full-temporal edge runs from a strictly earlier
timestep to a strictly later one, every agent-to-agent edge joins nodes of
one timestep (both construction paths), and consequently the decoder output
embedding at a timestep is unchanged under any modification of agent
position, heading, velocity or validity at strictly later timesteps. -/
theorem c10_attention_causality (p : DecParams) (d : DScene)
    (pos2 vel2 : ℕ → ℕ → ℕ → ℚ) (head2 : ℕ → ℕ → ℚ) (valid2 : ℕ → ℕ → Bool)
    (t0 : ℕ)
    (hpos : ∀ a s, s ≤ t0 → pos2 a s = d.pos a s)
    (hhead : ∀ a s, s ≤ t0 → head2 a s = d.heading a s)
    (hvel : ∀ a s, s ≤ t0 → vel2 a s = d.vel a s)
    (hvalid : ∀ a s, s ≤ t0 → valid2 a s = d.valid a s) :
    (∀ e ∈ patchEdges d, e.1 % d.T < e.2 % d.T) ∧
    (∀ e ∈ fullEdges d, e.1 % d.T < e.2 % d.T) ∧
    (∀ (avail : Bool) (inputDim k : ℕ), ∀ e ∈ a2aEdges avail inputDim k d,
      e.1 / d.A = e.2 / d.A) ∧
    (∀ n, n < d.A * d.T → n % d.T ≤ t0 →
      decoderOut p (overrideDyn d pos2 head2 vel2 valid2) n =
        decoderOut p d n) := by
  have htemp : ∀ e ∈ tPairs d, e.1 % d.T < e.2 % d.T := by
    intro e he
    obtain ⟨a, i, j, _, hi, hj, hij, _, _, heq⟩ := tPairs_mem_elim he
    have h1 : e.1 % d.T = i := by rw [heq]; exact tnode_mod a i d.T hi
    have h2 : e.2 % d.T = j := by rw [heq]; exact tnode_mod a j d.T hj
    omega
  refine ⟨?_, ?_, ?_, ?_⟩
  · intro e he
    exact htemp e (List.mem_filter.mp he).1
  · intro e he
    exact htemp e (List.mem_filter.mp he).1
  · intro avail inputDim k e he
    exact (a2aEdges_elim d avail inputDim k e he).1
  · exact decoderOut_inv d pos2 head2 vel2 valid2 t0 p hpos hhead hvel hvalid

/-- Witness for C10: a concrete patch edge runs forward in time, and the
decoder output at timestep 0 is unchanged under a concrete modification of
the mutable state at later timesteps. -/
theorem c10_attention_causality_witness :
    (((0 : ℕ), (1 : ℕ)) ∈ patchEdges exD3 ∧ 0 % exD3.T < 1 % exD3.T) ∧
    decoderOut exP (overrideDyn exD4
        (fun a s => if s = 0 then exD4.pos a s else fun _ => 7)
        (fun a s => if s = 0 then exD4.heading a s else 7)
        (fun a s => if s = 0 then exD4.vel a s else fun _ => 7)
        (fun a s => if s = 0 then exD4.valid a s else false)) 0 =
      decoderOut exP exD4 0 := by
  constructor
  · refine ⟨by decide, ?_⟩
    exact (c10_attention_causality exP exD3 exD3.pos exD3.vel exD3.heading
      exD3.valid 0 (fun _ _ _ => rfl) (fun _ _ _ => rfl) (fun _ _ _ => rfl)
      (fun _ _ _ => rfl)).1 (0, 1) (by decide)
  · exact (c10_attention_causality exP exD4
      (fun a s => if s = 0 then exD4.pos a s else fun _ => 7)
      (fun a s => if s = 0 then exD4.vel a s else fun _ => 7)
      (fun a s => if s = 0 then exD4.heading a s else 7)
      (fun a s => if s = 0 then exD4.valid a s else false) 0
      (by intro a s hs; simp [Nat.le_zero.mp hs])
      (by intro a s hs; simp [Nat.le_zero.mp hs])
      (by intro a s hs; simp [Nat.le_zero.mp hs])
      (by intro a s hs; simp [Nat.le_zero.mp hs])).2.2.2
      0 (by decide) (by decide)

end ScenGen
